import Mathlib

/-!
Verification of the `lazylist` engine from `src/lazystuff/lazylist.py`.

Shallow embedding.  A `lazylist` object has three fields:

  * `_strict : list` — the already-materialized elements;
  * `_tail : Iterator | None` — the active single-pass iterator;
  * `_tails : deque[Iterator | list]` — pending sources.

Python iterators are modelled by the list of elements they will still
yield; `itertools.tee` hands each fork an independent view of exactly
those remaining elements, which in this value model is a plain copy.

Python *list objects* in the pending queue are mutable and may be
aliased (for example `__imul__` appends the very same list object to
every repetition, and `append` mutates `self._tails[-1]` in place), so
list objects are modelled by references into an explicit heap: a list
object is an index into `Heap α`, allocation appends at the end.
The current `_strict` list of a container is never aliased by any
pending queue (both `__imul__` and `reverse` re-bind `self._strict` to
a fresh list right after publishing the old object), so `strict` is
kept as a plain value; the old strict object is allocated into the
heap at the moment `__imul__`/`reverse` publish it.
-/

namespace LazyStuff

/-- A Python list object store: a list object is an index into the heap. -/
abbrev Heap (α : Type) := List (List α)

/-- Read a list object; a dangling reference reads as the empty list. -/
def hget (h : Heap α) (i : Nat) : List α := h.getD i []

/-- Overwrite a list object in place. -/
def hset (h : Heap α) (i : Nat) (l : List α) : Heap α := h.set i l

/-- Allocate a fresh list object, returning its reference. -/
def halloc (h : Heap α) (l : List α) : Nat × Heap α := (h.length, h ++ [l])

/-- An entry of `_tails`: either a Python list object (by reference) or a
single-pass iterator (by its remaining elements). -/
inductive Entry (α : Type) where
  | ref (i : Nat)
  | itr (l : List α)
deriving DecidableEq, Repr

/-- The elements an entry will contribute when reached. -/
def entryElems (h : Heap α) : Entry α → List α
  | .ref i => hget h i
  | .itr l => l

/-- The state of a `lazylist` object: `_strict`, `_tail`, `_tails`. -/
structure LL (α : Type) where
  strict : List α
  tail : Option (List α)
  tails : List (Entry α)
deriving DecidableEq, Repr

/-- Python `lazylist.__init__` with no argument: empty strict part, no tails. -/
def LL.empty : LL α := ⟨[], none, []⟩

/-- The remaining elements of an optional active tail. -/
def optElems : Option (List α) → List α
  | some l => l
  | none => []

/-- The fully-flattened logical contents of a container: `_strict`, then
the remaining elements of `_tail`, then each pending source in order. -/
def toList (s : LL α) (h : Heap α) : List α :=
  s.strict ++ optElems s.tail ++ (s.tails.map (entryElems h)).flatten

/-- Python `lazylist._is_strict`: `self._tail is None and not self._tails`. -/
def isStrict (s : LL α) : Bool := s.tail.isNone && s.tails.isEmpty

/-- The loop of `lazylist._advance_tail`: pop pending entries, splicing
list objects into `strict`, until an iterator is found (it becomes the
active tail) or the queue is empty. -/
def advanceGo (h : Heap α) (strict : List α) :
    List (Entry α) → List α × Option (List α) × List (Entry α)
  | [] => (strict, none, [])
  | .ref i :: rest => advanceGo h (strict ++ hget h i) rest
  | .itr l :: rest => (strict, some l, rest)

/-- Python `lazylist._advance_tail` (sets `_tail = None` then runs the loop). -/
def advanceTail (s : LL α) (h : Heap α) : LL α :=
  let r := advanceGo h s.strict s.tails
  ⟨r.1, r.2.1, r.2.2⟩

/-- The sources a container can be built from / extended with: a Python
list (copied on entry) or any other iterable (turned into an iterator). -/
inductive Src (α : Type) where
  | lst (l : List α)
  | itr (l : List α)
deriving DecidableEq, Repr

/-- The elements a source denotes. -/
def Src.elems : Src α → List α
  | .lst l => l
  | .itr l => l

/-- Python `lazylist._add_tail`: append a copy of a list (a fresh heap object)
or an iterator to `_tails`, then advance if there is no active tail. -/
def addTail (s : LL α) (h : Heap α) : Src α → LL α × Heap α
  | .lst l =>
      let a := halloc h l
      let s' : LL α := ⟨s.strict, s.tail, s.tails ++ [Entry.ref a.1]⟩
      (if s'.tail.isNone then advanceTail s' a.2 else s', a.2)
  | .itr l =>
      let s' : LL α := ⟨s.strict, s.tail, s.tails ++ [Entry.itr l]⟩
      (if s'.tail.isNone then advanceTail s' h else s', h)

/-- Termination measure for the `_make_strict` pull loop: one unit per
source plus one unit per element still inside a source. -/
def msMeasure (s : LL α) (h : Heap α) : Nat :=
  (match s.tail with | some l => l.length + 1 | none => 0) +
    (s.tails.map (fun e => (entryElems h e).length + 1)).sum

theorem advanceGo_measure (h : Heap α) (strict : List α) (ts : List (Entry α)) :
    (match (advanceGo h strict ts).2.1 with | some l => l.length + 1 | none => 0) +
      ((advanceGo h strict ts).2.2.map (fun e => (entryElems h e).length + 1)).sum ≤
      (ts.map (fun e => (entryElems h e).length + 1)).sum := by
  induction ts generalizing strict with
  | nil => simp [advanceGo]
  | cons e rest ih =>
      cases e with
      | ref i =>
          simpa [advanceGo, List.map_cons, List.sum_cons] using
            le_trans (ih (strict ++ hget h i)) (Nat.le_add_left _ _)
      | itr l => simp [advanceGo, List.map_cons, List.sum_cons, entryElems]

/-- The loop of `lazylist._make_strict` for a non-negative integer
requirement: `while self._tail and len(self._strict) <= index:` pull
one element (`next`), advancing to the next pending source on
exhaustion (`StopIteration`).  The heap is never written. -/
def makeStrictIdx (h : Heap α) (idx : Nat) (s : LL α) : LL α :=
  match ht : s.tail with
  | none => s
  | some l =>
      if s.strict.length ≤ idx then
        match l with
        | x :: rest => makeStrictIdx h idx ⟨s.strict ++ [x], some rest, s.tails⟩
        | [] => makeStrictIdx h idx (advanceTail ⟨s.strict, none, s.tails⟩ h)
      else s
termination_by msMeasure s h
decreasing_by
  · simp [msMeasure, ht]
  · simp only [msMeasure, advanceTail, ht]
    exact lt_of_le_of_lt (advanceGo_measure h s.strict s.tails) (by omega)

/-- Python `lazylist._make_strict(None)`: drain the active tail and every
pending source, in order, into `strict`; afterwards no sources remain.
(When `_tail is None` the method returns immediately.) -/
def makeStrictAll (s : LL α) (h : Heap α) : LL α :=
  match s.tail with
  | none => s
  | some l => ⟨s.strict ++ l ++ (s.tails.map (entryElems h)).flatten, none, []⟩

/-- Python `lazylist._make_strict` on an arbitrary integer requirement: a
negative index forces full materialization, a non-negative one runs the
pull loop.  (The slice branch of the source is not used by the
operations verified here.) -/
def makeStrictInt (h : Heap α) (i : Int) (s : LL α) : LL α :=
  if i < 0 then makeStrictAll s h else makeStrictIdx h i.toNat s

/-- Python `lazylist.append`: straight into `strict` when fully strict;
otherwise mutate the last pending entry in place when it is a list
object (`self._tails[-1].append(value)`); otherwise add a fresh
one-element list source. -/
def append (s : LL α) (h : Heap α) (v : α) : LL α × Heap α :=
  if isStrict s then (⟨s.strict ++ [v], s.tail, s.tails⟩, h)
  else
    match s.tails.getLast? with
    | some (.ref i) => (s, hset h i (hget h i ++ [v]))
    | _ => addTail s h (.lst [v])

/-- Python `lazylist.extend` / `__iadd__`: `self._add_tail(values)`. -/
def extend (s : LL α) (h : Heap α) (src : Src α) : LL α × Heap α := addTail s h src

/-- Python `lazylist.clear`: empty strict part, no tails. -/
def clear (_s : LL α) : LL α := ⟨[], none, []⟩

/-- One repetition group built by `__imul__`'s `_add_repetition` calls:
the old strict list object (the same heap reference in every group),
then a tee of the active tail, then the pending entries — a pending
list object is appended as the *same* reference to every group, a
pending iterator is teed (each group receives its remaining elements). -/
def repGroup (s : LL α) (sid : Nat) : List (Entry α) :=
  Entry.ref sid ::
    ((match s.tail with | some l => [Entry.itr l] | none => []) ++ s.tails)

/-- Python `lazylist.__imul__ count`: build `count` repetition groups, publish
the old strict list into the heap (it is now shared), re-bind the
container to an empty strict part with the concatenated groups as the
pending queue, and advance. -/
def imul (s : LL α) (h : Heap α) (n : Nat) : LL α × Heap α :=
  let a := halloc h s.strict
  (advanceTail ⟨[], none, (List.replicate n (repGroup s a.1)).flatten⟩ a.2, a.2)

/-- The per-entry loop of `lazylist.copy`: the original keeps a pending
list object, the copy receives a fresh copy of it (`item.copy()`); an
iterator is teed, both sides receiving its remaining elements. -/
def copyTails (h : Heap α) :
    List (Entry α) → List (Entry α) × List (Entry α) × Heap α
  | [] => ([], [], h)
  | .ref i :: rest =>
      let a := halloc h (hget h i)
      let r := copyTails a.2 rest
      (Entry.ref i :: r.1, Entry.ref a.1 :: r.2.1, r.2.2)
  | .itr l :: rest =>
      let r := copyTails h rest
      (Entry.itr l :: r.1, Entry.itr l :: r.2.1, r.2.2)

/-- Python `lazylist.copy`: value-copy of `strict`, tee of the active tail
(both sides see its remaining elements), per-entry fork of the pending
queue.  Returns (original after re-teeing, the copy, the heap). -/
def copy (s : LL α) (h : Heap α) : LL α × LL α × Heap α :=
  let r := copyTails h s.tails
  (⟨s.strict, s.tail, r.1⟩, ⟨s.strict, s.tail, r.2.1⟩, r.2.2)

/-- Python `lazylist.reverse`: requeue each pending source lazily reversed, in
reverse queue order; then the lazily-reversed old tail; then the old
strict list, reversed in place and published to the heap (it is a list
object entering the pending queue) — skipped when empty; advance.
`_lazy_reversed` is modelled as an iterator holding the reversed
elements of the source at reversal time (no claim verified here
interleaves a mutation between `reverse()` and materialization). -/
def reverse (s : LL α) (h : Heap α) : LL α × Heap α :=
  let revT : List (Entry α) :=
    s.tails.reverse.map (fun e => Entry.itr (entryElems h e).reverse)
  let withT := revT ++
    (match s.tail with | some l => [Entry.itr l.reverse] | none => [])
  if s.strict.isEmpty then (advanceTail ⟨[], none, withT⟩ h, h)
  else
    let a := halloc h s.strict.reverse
    (advanceTail ⟨[], none, withT ++ [Entry.ref a.1]⟩ a.2, a.2)

/-- Position at which CPython `list.insert(i, v)` places `v` in a list
of length `n` (negative indices counted from the end, then clamped). -/
def pyInsertPos (n : Nat) (i : Int) : Nat :=
  if i < 0 then ((n : Int) + i).toNat else min i.toNat n

/-- Python `lazylist.insert`: `self._make_strict(index - 1)` then
`self._strict.insert(index, value)`. -/
def insert (s : LL α) (h : Heap α) (i : Int) (v : α) : LL α :=
  let s' := makeStrictInt h (i - 1) s
  ⟨s'.strict.insertIdx (pyInsertPos s'.strict.length i) v, s'.tail, s'.tails⟩

/-- Normalized position of index `i` in a list of length `n`, CPython
`list` indexing semantics: `none` means IndexError. -/
def pyNormIdx (n : Nat) (i : Int) : Option Nat :=
  let j := if i < 0 then i + n else i
  if 0 ≤ j ∧ j < n then some j.toNat else none

/-- Python `lazylist.pop`: `self._make_strict(index if index > 0 else None)`
then `self._strict.pop(index)`; on IndexError the materialization
already performed persists. -/
def pop (s : LL α) (h : Heap α) (i : Int) : LL α :=
  let s' := if 0 < i then makeStrictIdx h i.toNat s else makeStrictAll s h
  match pyNormIdx s'.strict.length i with
  | some k => ⟨s'.strict.eraseIdx k, s'.tail, s'.tails⟩
  | none => s'

/-- Python `lazylist.__delitem__` at an integer index: make strict up to the
index, then `del self._strict[index]`. -/
def delitem (s : LL α) (h : Heap α) (i : Int) : LL α :=
  let s' := makeStrictInt h i s
  match pyNormIdx s'.strict.length i with
  | some k => ⟨s'.strict.eraseIdx k, s'.tail, s'.tails⟩
  | none => s'

/-- Python `lazylist.__setitem__` at an integer index: make strict up to the
index, then `self._strict[index] = value`. -/
def setitem (s : LL α) (h : Heap α) (i : Int) (v : α) : LL α :=
  let s' := makeStrictInt h i s
  match pyNormIdx s'.strict.length i with
  | some k => ⟨s'.strict.set k v, s'.tail, s'.tails⟩
  | none => s'

/-- Python `lazylist.__getitem__` at an integer index: the container state
after the read (`self._make_strict(index)`; the heap is unchanged). -/
def getitem (s : LL α) (h : Heap α) (i : Int) : LL α := makeStrictInt h i s

/-- The synchronized-iteration loop of `lazylist.__cmp__`, expressed on
the element sequences the two iterations yield: compare pairwise until
the first differing pair; the side that exhausts first (with the other
still holding elements) is smaller; both exhausting together is
equality. -/
def lazyCmp [LinearOrder α] : List α → List α → Int
  | x :: xs, y :: ys => if x = y then lazyCmp xs ys else if x < y then -1 else 1
  | [], [] => 0
  | [], _ :: _ => -1
  | _ :: _, [] => 1

/-- Python `lazylist.__cmp__` between two containers.  Iterating a container
yields exactly its flattened logical contents (`iterGet_toList` below),
and iteration never writes the heap, so the synchronized iteration of
the two sides compares their `toList`s. -/
def llCmp [LinearOrder α] (s t : LL α) (h : Heap α) : Int :=
  lazyCmp (toList s h) (toList t h)

/-- Python `lazylist.__cmp__` against a plain Python list. -/
def llCmpList [LinearOrder α] (s : LL α) (h : Heap α) (l : List α) : Int :=
  lazyCmp (toList s h) l

/-- Python `lazylist.__eq__` between two containers: `self.__cmp__(other) == 0`. -/
def llEq [LinearOrder α] (s t : LL α) (h : Heap α) : Bool := llCmp s t h == 0

/-- Python `lazylist.__lt__`: `not self.__ge__(other)`, i.e. `__cmp__ < 0`. -/
def llLt [LinearOrder α] (s : LL α) (h : Heap α) (l : List α) : Bool :=
  !(llCmpList s h l ≥ 0)

/-- Python `lazylist.__gt__`: `self.__cmp__(other) > 0`. -/
def llGt [LinearOrder α] (s : LL α) (h : Heap α) (l : List α) : Bool :=
  llCmpList s h l > 0

/-- Scan a list for the first position `i ≥` the running counter with
`lo ≤ i ≤/< hi` holding `v`; `hiStrict` selects a strict upper bound
(CPython `list.index`) or an inclusive one (the lazy scan in
`lazylist.index`). -/
def indexScanFrom [DecidableEq α] (v : α) (lo hi : Int) (hiStrict : Bool) :
    List α → Nat → Option Nat
  | [], _ => none
  | x :: xs, i =>
      if lo ≤ (i : Int) ∧ (if hiStrict then (i : Int) < hi else (i : Int) ≤ hi) ∧ x = v
      then some i
      else indexScanFrom v lo hi hiStrict xs (i + 1)

/-- CPython `list.index(v, start, stop)` (the strict-path delegate of
`lazylist.index`): negative bounds are shifted by the length (start
additionally clamped at 0), the upper bound is exclusive, first match
position is returned, `none` is ValueError. -/
def pyListIndex [DecidableEq α] (l : List α) (v : α) (start stop : Int) : Option Nat :=
  let n : Int := l.length
  let lo := if start < 0 then max (start + n) 0 else start
  let hi := if stop < 0 then stop + n else stop
  indexScanFrom v lo hi true l 0

/-- Python `lazylist.index`: delegate to the strict store's `index` when fully
strict; otherwise enumerate own iteration and return the first position
with `start <= index <= stop` holding the value (`none` is ValueError).
Iteration yields `toList` (`iterGet_toList` below). -/
def llIndex [DecidableEq α] (s : LL α) (h : Heap α) (v : α) (start stop : Int) :
    Option Nat :=
  if isStrict s then pyListIndex s.strict v start stop
  else indexScanFrom v start stop false (toList s h) 0

/-- Structural invariant: no active tail implies no pending sources. -/
def Inv (s : LL α) : Prop := s.tail = none → s.tails = []

/-!  Fallible sources, for the error-propagation claim.  A pull from an
iterator either yields a value or raises: an iterator is a list of
`Except ε α`.  Plain list sources never fail.  List-object aliasing is
irrelevant to error propagation, so no heap is needed here. -/

/-- A pending entry with fallible iterators. -/
inductive FEntry (ε α : Type) where
  | lst (l : List α)
  | itr (l : List (Except ε α))

/-- Container state with fallible iterator sources. -/
structure FLL (ε α : Type) where
  strict : List α
  tail : Option (List (Except ε α))
  tails : List (FEntry ε α)

/-- The remaining pull outcomes of an optional fallible tail. -/
def foptElems : Option (List (Except ε α)) → List (Except ε α)
  | some l => l
  | none => []

/-- The pull-outcome stream of a pending queue (list elements never
fail). -/
def ftsStream (ts : List (FEntry ε α)) : List (Except ε α) :=
  (ts.map (fun e => match e with
    | .lst l => l.map Except.ok
    | .itr l => l)).flatten

/-- The stream of pull outcomes still ahead of the strict store: the
active tail, then each pending source. -/
def fstream (s : FLL ε α) : List (Except ε α) :=
  foptElems s.tail ++ ftsStream s.tails

/-- The loop of `_advance_tail` over fallible entries. -/
def fadvanceGo (strict : List α) :
    List (FEntry ε α) → List α × Option (List (Except ε α)) × List (FEntry ε α)
  | [] => (strict, none, [])
  | .lst l :: rest => fadvanceGo (strict ++ l) rest
  | .itr l :: rest => (strict, some l, rest)

/-- Size of a fallible entry (for the termination measure). -/
def fentrySize : FEntry ε α → Nat
  | .lst l => l.length
  | .itr l => l.length

/-- Size of an optional fallible tail (for the termination measure). -/
def ftailSize : Option (List (Except ε α)) → Nat
  | some l => l.length + 1
  | none => 0

/-- Termination measure for the fallible pull loop. -/
def fmsMeasure (s : FLL ε α) : Nat :=
  ftailSize s.tail + (s.tails.map (fun e => fentrySize e + 1)).sum

theorem fadvanceGo_measure (strict : List α) (ts : List (FEntry ε α)) :
    ftailSize (fadvanceGo strict ts).2.1 +
      ((fadvanceGo strict ts).2.2.map (fun e => fentrySize e + 1)).sum ≤
      (ts.map (fun e => fentrySize e + 1)).sum := by
  induction ts generalizing strict with
  | nil => simp [fadvanceGo, ftailSize]
  | cons e rest ih =>
      cases e with
      | lst l =>
          simpa [fadvanceGo, List.map_cons, List.sum_cons] using
            le_trans (ih (strict ++ l)) (Nat.le_add_left _ _)
      | itr l => simp [fadvanceGo, List.map_cons, List.sum_cons, fentrySize, ftailSize]

/-- Python `_advance_tail` on a fallible container. -/
def fadvance (s : FLL ε α) : FLL ε α :=
  let r := fadvanceGo s.strict s.tails
  ⟨r.1, r.2.1, r.2.2⟩

/-- The `_make_strict` pull loop over fallible sources: a successful
pull appends to `strict`; `StopIteration` advances to the next source;
any other exception propagates at once, leaving `strict` as pulled so
far (the failing pull consumes the erroneous position). -/
def fmakeStrictIdx (idx : Nat) (s : FLL ε α) : FLL ε α × Option ε :=
  match ht : s.tail with
  | none => (s, none)
  | some l =>
      if s.strict.length ≤ idx then
        match l with
        | .ok x :: rest => fmakeStrictIdx idx ⟨s.strict ++ [x], some rest, s.tails⟩
        | .error e :: rest => (⟨s.strict, some rest, s.tails⟩, some e)
        | [] => fmakeStrictIdx idx (fadvance ⟨s.strict, none, s.tails⟩)
      else (s, none)
termination_by fmsMeasure s
decreasing_by
  · simp [fmsMeasure, ftailSize, ht]
  · simp only [fmsMeasure, fadvance, ht, ftailSize]
    refine lt_of_le_of_lt (Nat.le_of_eq rfl) ?_
    refine lt_of_le_of_lt (fadvanceGo_measure s.strict s.tails) ?_
    omega

/-- Python `list(tail)` over a fallible iterator: the values, or the first
error — in which case all values pulled before it are discarded with
the partially-built list. -/
def listOfF : List (Except ε α) → Except ε (List α)
  | [] => .ok []
  | .ok x :: rest => (listOfF rest).map (fun l => x :: l)
  | .error e :: _ => .error e

/-- The values before the first error of a fallible iterator. -/
def valsBeforeErr : List (Except ε α) → List α
  | [] => []
  | .ok x :: rest => x :: valsBeforeErr rest
  | .error _ :: _ => []

/-- The drain loop of `_make_strict(None)`:
`for tail in self._tails: self._strict.extend(list(tail))` after
`appendleft(self._tail)` — each source is turned into a full list
before `strict` is extended, so a failing source contributes nothing. -/
def fdrainGo (strict : List α) : List (FEntry ε α) → List α × Option ε
  | [] => (strict, none)
  | .lst l :: rest => fdrainGo (strict ++ l) rest
  | .itr l :: rest =>
      match listOfF l with
      | .ok vs => fdrainGo (strict ++ vs) rest
      | .error e => (strict, some e)

/-- Entry discriminator: is this pending entry an iterator? -/
def isItr : Entry α → Bool
  | .itr _ => true
  | .ref _ => false

/-- Source discriminator: is this source an iterator source? -/
def isItrSrc : Src α → Bool
  | .itr _ => true
  | .lst _ => false

/-- A pending entry is within a heap of `n` objects. -/
def entryOk (n : Nat) : Entry α → Bool
  | .ref i => i < n
  | .itr _ => true

/-- All pending references of a container point into the first `n` heap
objects (no dangling references). -/
def refsOk (s : LL α) (n : Nat) : Bool := s.tails.all (entryOk n)

/-- All pending entries are iterators (no pending list sources). -/
def allItr (s : LL α) : Bool := s.tails.all isItr

/-- Build a container from a mix of sources: `lazylist(first)` followed
by `extend` for the rest — every source enters through `_add_tail`. -/
def build (specs : List (Src α)) : LL α × Heap α :=
  specs.foldl (fun p src => addTail p.1 p.2 src) (LL.empty, ([] : Heap α))

/-- Content-consuming / extending operations, for fork independence:
an indexed read (`__getitem__`, which is also one iteration step), an
`append`, and an `extend`. -/
inductive Op (α : Type) where
  | read (i : Int)
  | app (v : α)
  | ext (src : Src α)

/-- Apply one operation to a container with its heap. -/
def applyOp (p : LL α × Heap α) : Op α → LL α × Heap α
  | .read i => (makeStrictInt p.2 i p.1, p.2)
  | .app v => append p.1 p.2 v
  | .ext src => addTail p.1 p.2 src

/-- Apply a sequence of operations. -/
def applyOps (p : LL α × Heap α) (ops : List (Op α)) : LL α × Heap α :=
  ops.foldl applyOp p

/-- Python `lazylist._make_strict(None)` over fallible sources.  On success,
tails are cleared and the tail dropped; on failure the exception
propagates before `self._tails.clear()` and `self._tail = None` run,
so the (partially consumed) tail object stays active and also remains
at the front of the queue where `appendleft` put it. -/
def fmakeStrictAll (s : FLL ε α) : FLL ε α × Option ε :=
  match s.tail with
  | none => (s, none)
  | some t =>
      let r := fdrainGo s.strict (FEntry.itr t :: s.tails)
      match r.2 with
      | none => (⟨r.1, none, []⟩, none)
      | some e => (⟨r.1, some t, FEntry.itr t :: s.tails⟩, some e)

/-! ### Basic lemmas about the engine -/

theorem makeStrictIdx_eq_none (h : Heap α) (idx : Nat) (s : LL α)
    (hx : s.tail = none) : makeStrictIdx h idx s = s := by
  obtain ⟨st, tl, ts⟩ := s
  subst hx
  rw [makeStrictIdx.eq_def]

theorem makeStrictIdx_eq_cons (h : Heap α) (idx : Nat) (s : LL α) (v : α)
    (rest : List α) (hx : s.tail = some (v :: rest)) (hlen : s.strict.length ≤ idx) :
    makeStrictIdx h idx s =
      makeStrictIdx h idx ⟨s.strict ++ [v], some rest, s.tails⟩ := by
  obtain ⟨st, tl, ts⟩ := s
  subst hx
  rw [makeStrictIdx.eq_def]
  simp only at hlen
  simp [hlen]

theorem makeStrictIdx_eq_adv (h : Heap α) (idx : Nat) (s : LL α)
    (hx : s.tail = some []) (hlen : s.strict.length ≤ idx) :
    makeStrictIdx h idx s =
      makeStrictIdx h idx (advanceTail ⟨s.strict, none, s.tails⟩ h) := by
  obtain ⟨st, tl, ts⟩ := s
  subst hx
  rw [makeStrictIdx.eq_def]
  simp only at hlen
  simp [hlen]

theorem makeStrictIdx_eq_stop (h : Heap α) (idx : Nat) (s : LL α) (l : List α)
    (hx : s.tail = some l) (hlen : ¬ s.strict.length ≤ idx) :
    makeStrictIdx h idx s = s := by
  obtain ⟨st, tl, ts⟩ := s
  subst hx
  rw [makeStrictIdx.eq_def]
  simp only at hlen
  simp [hlen]

theorem advanceGo_toList (h : Heap α) (strict : List α) (ts : List (Entry α)) :
    (advanceGo h strict ts).1 ++
      (optElems (advanceGo h strict ts).2.1 ++
        ((advanceGo h strict ts).2.2.map (entryElems h)).flatten) =
      strict ++ (ts.map (entryElems h)).flatten := by
  induction ts generalizing strict with
  | nil => simp [advanceGo, optElems]
  | cons e rest ih =>
      cases e with
      | ref i => simpa [advanceGo, entryElems] using ih (strict ++ hget h i)
      | itr l => simp [advanceGo, entryElems, optElems]

theorem advanceTail_toList (s : LL α) (h : Heap α) (hn : optElems s.tail = []) :
    toList (advanceTail s h) h = toList s h := by
  simp [toList, advanceTail, hn, advanceGo_toList]

theorem advanceGo_inv (h : Heap α) (strict : List α) (ts : List (Entry α)) :
    (advanceGo h strict ts).2.1 = none → (advanceGo h strict ts).2.2 = [] := by
  induction ts generalizing strict with
  | nil => simp [advanceGo]
  | cons e rest ih =>
      cases e with
      | ref i => simpa [advanceGo] using ih (strict ++ hget h i)
      | itr l => simp [advanceGo]

theorem advanceTail_inv (s : LL α) (h : Heap α) : Inv (advanceTail s h) := by
  intro hn
  simp only [advanceTail] at hn ⊢
  exact advanceGo_inv h s.strict s.tails hn

theorem makeStrictIdx_toList (h : Heap α) (idx : Nat) (s : LL α) :
    toList (makeStrictIdx h idx s) h = toList s h := by
  induction s using makeStrictIdx.induct h idx with
  | case1 x hx => rw [makeStrictIdx_eq_none h idx x hx]
  | case2 x hlen v rest hx _ ih =>
      rw [makeStrictIdx_eq_cons h idx x v rest hx hlen, ih]
      simp [toList, optElems, hx]
  | case3 x hlen hx _ ih =>
      rw [makeStrictIdx_eq_adv h idx x hx hlen, ih,
        advanceTail_toList _ _ (by simp [optElems])]
      simp [toList, optElems, hx]
  | case4 x l hx hlen => rw [makeStrictIdx_eq_stop h idx x l hx hlen]

theorem makeStrictIdx_inv (h : Heap α) (idx : Nat) (s : LL α) (hs : Inv s) :
    Inv (makeStrictIdx h idx s) := by
  induction s using makeStrictIdx.induct h idx with
  | case1 x hx => rw [makeStrictIdx_eq_none h idx x hx]; exact hs
  | case2 x hlen v rest hx _ ih =>
      rw [makeStrictIdx_eq_cons h idx x v rest hx hlen]
      exact ih (by intro hc; simp at hc)
  | case3 x hlen hx _ ih =>
      rw [makeStrictIdx_eq_adv h idx x hx hlen]
      exact ih (advanceTail_inv _ _)
  | case4 x l hx hlen => rw [makeStrictIdx_eq_stop h idx x l hx hlen]; exact hs

theorem makeStrictAll_toList (s : LL α) (h : Heap α) (hs : Inv s) :
    (makeStrictAll s h).strict = toList s h := by
  cases ht : s.tail with
  | none => simp [makeStrictAll, ht, toList, hs ht, optElems]
  | some l => simp [makeStrictAll, ht, toList, optElems]

theorem makeStrictAll_inv (s : LL α) (h : Heap α) (hs : Inv s) :
    Inv (makeStrictAll s h) := by
  cases ht : s.tail with
  | none =>
      intro hn
      simp only [makeStrictAll, ht] at hn ⊢
      exact hs ht
  | some l => intro hn; simp [makeStrictAll, ht]

theorem makeStrictAll_tail (s : LL α) (h : Heap α) (hs : Inv s) :
    (makeStrictAll s h).tail = none ∧ (makeStrictAll s h).tails = [] := by
  cases ht : s.tail with
  | none => simp [makeStrictAll, ht, hs ht]
  | some l => simp [makeStrictAll, ht]

/-- The strict store is always the prefix of the logical contents of
its own length. -/
theorem strict_take_toList (s : LL α) (h : Heap α) :
    s.strict = (toList s h).take s.strict.length := by
  simp [toList, List.append_assoc, List.take_left]

theorem makeStrictIdx_length (h : Heap α) (idx : Nat) (s : LL α) (hs : Inv s) :
    min (idx + 1) (toList s h).length ≤ (makeStrictIdx h idx s).strict.length := by
  induction s using makeStrictIdx.induct h idx with
  | case1 x hx =>
      rw [makeStrictIdx_eq_none h idx x hx]
      have hl : toList x h = x.strict := by simp [toList, hx, hs hx, optElems]
      rw [hl]
      omega
  | case2 x hlen v rest hx _ ih =>
      rw [makeStrictIdx_eq_cons h idx x v rest hx hlen]
      have h1 := ih (by intro hc; simp at hc)
      have h2 : toList (⟨x.strict ++ [v], some rest, x.tails⟩ : LL α) h =
          toList x h := by
        simp [toList, optElems, hx]
      rw [h2] at h1
      exact h1
  | case3 x hlen hx _ ih =>
      rw [makeStrictIdx_eq_adv h idx x hx hlen]
      have h1 := ih (advanceTail_inv _ _)
      have h2 : toList (advanceTail (⟨x.strict, none, x.tails⟩ : LL α) h) h =
          toList x h := by
        rw [advanceTail_toList _ _ (by simp [optElems])]
        simp [toList, optElems, hx]
      rw [h2] at h1
      exact h1
  | case4 x l hx hlen =>
      rw [makeStrictIdx_eq_stop h idx x l hx hlen]
      have : x.strict.length ≤ (toList x h).length := by
        simp [toList]
      omega

/-! ### Heap-extension and source-addition lemmas -/

theorem hget_append_lt (h hs : Heap α) (i : Nat) (hi : i < h.length) :
    hget (h ++ hs) i = hget h i := by
  simp only [hget, List.getD_eq_getElem?_getD]
  rw [List.getElem?_append_left hi]

theorem hget_alloc (h : Heap α) (l : List α) : hget (h ++ [l]) h.length = l := by
  simp [hget, List.getD_append_right, le_refl]

theorem entryOk_mono (m n : Nat) (hmn : m ≤ n) (e : Entry α) (he : entryOk m e) :
    entryOk n e := by
  cases e with
  | ref i => simp only [entryOk, decide_eq_true_eq] at he ⊢; omega
  | itr l => simp [entryOk]

theorem entryElems_append (h hs : Heap α) (e : Entry α) (he : entryOk h.length e) :
    entryElems (h ++ hs) e = entryElems h e := by
  cases e with
  | ref i =>
      simp only [entryElems]
      exact hget_append_lt h hs i (by simpa [entryOk] using he)
  | itr l => rfl

theorem toList_heap_append (s : LL α) (h hs : Heap α) (hr : refsOk s h.length) :
    toList s (h ++ hs) = toList s h := by
  simp only [toList]
  have hm : s.tails.map (entryElems (h ++ hs)) = s.tails.map (entryElems h) := by
    refine List.map_congr_left ?_
    intro e he
    exact entryElems_append h hs e ((List.all_eq_true.mp hr) e he)
  rw [hm]

theorem advanceGo_tails_all (h : Heap α) (p : Entry α → Bool) (strict : List α)
    (ts : List (Entry α)) (hp : ts.all p) : (advanceGo h strict ts).2.2.all p := by
  induction ts generalizing strict with
  | nil => simp [advanceGo]
  | cons e rest ih =>
      cases e with
      | ref i =>
          simp only [advanceGo]
          exact ih _ (by simp_all)
      | itr l =>
          simp only [advanceGo]
          simp_all

theorem advanceGo_strict_allItr (h : Heap α) (strict : List α) (ts : List (Entry α))
    (hp : ts.all isItr) : (advanceGo h strict ts).1 = strict := by
  cases ts with
  | nil => simp [advanceGo]
  | cons e rest =>
      cases e with
      | ref i => simp [isItr] at hp
      | itr l => simp [advanceGo]

theorem addTail_inv (s : LL α) (h : Heap α) (src : Src α) :
    Inv (addTail s h src).1 := by
  cases src with
  | lst l =>
      simp only [addTail]
      by_cases hn : s.tail.isNone
      · simpa [hn] using advanceTail_inv _ _
      · intro hc
        simp only [hn, if_neg, Bool.false_eq_true, not_false_eq_true, ite_false] at hc
        simp_all
  | itr l =>
      simp only [addTail]
      by_cases hn : s.tail.isNone
      · simpa [hn] using advanceTail_inv _ _
      · intro hc
        simp only [hn, if_neg, Bool.false_eq_true, not_false_eq_true, ite_false] at hc
        simp_all

theorem addTail_toList (s : LL α) (h : Heap α) (src : Src α)
    (hr : refsOk s h.length) :
    toList (addTail s h src).1 (addTail s h src).2 = toList s h ++ src.elems := by
  cases src with
  | lst l =>
      have h1 : toList (⟨s.strict, s.tail, s.tails ++ [Entry.ref h.length]⟩ : LL α)
          (h ++ [l]) = toList s h ++ l := by
        simp only [toList, List.map_append]
        have hm : s.tails.map (entryElems (h ++ [l])) = s.tails.map (entryElems h) := by
          refine List.map_congr_left ?_
          intro e he
          exact entryElems_append h [l] e ((List.all_eq_true.mp hr) e he)
        rw [hm]
        simp [entryElems, hget_alloc]
      simp only [addTail, halloc]
      by_cases hn : s.tail.isNone
      · have hn' : s.tail = none := Option.isNone_iff_eq_none.mp hn
        rw [if_pos hn]
        rw [advanceTail_toList _ _ (by simp [hn', optElems])]
        exact h1
      · rw [if_neg hn]
        exact h1
  | itr l =>
      have h1 : toList (⟨s.strict, s.tail, s.tails ++ [Entry.itr l]⟩ : LL α) h =
          toList s h ++ l := by
        simp [toList, List.map_append, entryElems]
      simp only [addTail]
      by_cases hn : s.tail.isNone
      · have hn' : s.tail = none := Option.isNone_iff_eq_none.mp hn
        rw [if_pos hn]
        rw [advanceTail_toList _ _ (by simp [hn', optElems])]
        exact h1
      · rw [if_neg hn]
        exact h1

theorem addTail_refsOk (s : LL α) (h : Heap α) (src : Src α)
    (hr : refsOk s h.length) :
    refsOk (addTail s h src).1 (addTail s h src).2.length := by
  cases src with
  | lst l =>
      have hall : (s.tails ++ [Entry.ref h.length]).all (entryOk (h ++ [l]).length) := by
        simp only [List.all_append, Bool.and_eq_true]
        constructor
        · refine List.all_eq_true.mpr ?_
          intro e he
          exact entryOk_mono h.length (h ++ [l]).length (by simp)
            e ((List.all_eq_true.mp hr) e he)
        · simp [entryOk]
      simp only [addTail, halloc, refsOk]
      by_cases hn : s.tail.isNone
      · rw [if_pos hn]
        exact advanceGo_tails_all _ _ _ _ hall
      · rw [if_neg hn]
        exact hall
  | itr l =>
      have hall : (s.tails ++ [Entry.itr l]).all (entryOk h.length) := by
        simp only [List.all_append, Bool.and_eq_true]
        exact ⟨hr, by simp [entryOk]⟩
      simp only [addTail, refsOk]
      by_cases hn : s.tail.isNone
      · rw [if_pos hn]
        exact advanceGo_tails_all _ _ _ _ hall
      · rw [if_neg hn]
        exact hall

theorem addTail_heapLen (s : LL α) (h : Heap α) (src : Src α) :
    h.length ≤ (addTail s h src).2.length := by
  cases src with
  | lst l => by_cases hn : s.tail.isNone <;> simp [addTail, halloc, hn]
  | itr l => by_cases hn : s.tail.isNone <;> simp [addTail, hn]

theorem addTail_itr_allItr (s : LL α) (h : Heap α) (l : List α) (ha : allItr s) :
    (addTail s h (Src.itr l)).1.strict = s.strict ∧
      allItr (addTail s h (Src.itr l)).1 := by
  have hall : (s.tails ++ [Entry.itr l]).all isItr := by
    simp only [List.all_append, Bool.and_eq_true]
    exact ⟨ha, by simp [isItr]⟩
  simp only [addTail, allItr]
  by_cases hn : s.tail.isNone
  · rw [if_pos hn]
    constructor
    · exact advanceGo_strict_allItr h s.strict _ hall
    · exact advanceGo_tails_all _ _ _ _ hall
  · rw [if_neg hn]
    exact ⟨rfl, hall⟩

/-- The fold underlying `build`: contents concatenate, the invariant and
reference validity are maintained. -/
theorem buildFold_props (specs : List (Src α)) (s : LL α) (h : Heap α)
    (hInv : Inv s) (hr : refsOk s h.length) :
    toList (specs.foldl (fun p src => addTail p.1 p.2 src) (s, h)).1
        (specs.foldl (fun p src => addTail p.1 p.2 src) (s, h)).2 =
      toList s h ++ (specs.map Src.elems).flatten ∧
    Inv (specs.foldl (fun p src => addTail p.1 p.2 src) (s, h)).1 ∧
    refsOk (specs.foldl (fun p src => addTail p.1 p.2 src) (s, h)).1
      (specs.foldl (fun p src => addTail p.1 p.2 src) (s, h)).2.length := by
  induction specs generalizing s h with
  | nil => exact ⟨by simp, hInv, hr⟩
  | cons src rest ih =>
      simp only [List.foldl_cons]
      obtain ⟨e1, e2, e3⟩ := ih (addTail s h src).1 (addTail s h src).2
        (addTail_inv s h src) (addTail_refsOk s h src hr)
      refine ⟨?_, ?_, ?_⟩
      · rw [e1, addTail_toList s h src hr]
        simp
      · exact e2
      · exact e3

theorem buildFold_allItr (specs : List (Src α)) (s : LL α) (h : Heap α)
    (ha : allItr s) (hs : specs.all isItrSrc) :
    (specs.foldl (fun p src => addTail p.1 p.2 src) (s, h)).1.strict = s.strict ∧
      allItr (specs.foldl (fun p src => addTail p.1 p.2 src) (s, h)).1 := by
  induction specs generalizing s h with
  | nil => exact ⟨rfl, ha⟩
  | cons src rest ih =>
      cases src with
      | lst l => simp [isItrSrc] at hs
      | itr l =>
          simp only [List.foldl_cons]
          have h1 := addTail_itr_allItr s h l ha
          have h2 := ih (addTail s h (Src.itr l)).1 (addTail s h (Src.itr l)).2
            h1.2 (by simp_all)
          exact ⟨h2.1.trans h1.1, h2.2⟩

theorem makeStrictIdx_length_allItr (h : Heap α) (idx : Nat) (s : LL α)
    (hs : Inv s) (ha : allItr s) :
    (makeStrictIdx h idx s).strict.length =
      max s.strict.length (min (idx + 1) (toList s h).length) := by
  induction s using makeStrictIdx.induct h idx with
  | case1 x hx =>
      rw [makeStrictIdx_eq_none h idx x hx]
      have hl : toList x h = x.strict := by simp [toList, hx, hs hx, optElems]
      rw [hl]
      omega
  | case2 x hlen v rest hx _ ih =>
      rw [makeStrictIdx_eq_cons h idx x v rest hx hlen]
      have h1 := ih (by intro hc; simp at hc) (by simpa [allItr] using ha)
      have h2 : toList (⟨x.strict ++ [v], some rest, x.tails⟩ : LL α) h =
          toList x h := by
        simp [toList, optElems, hx]
      rw [h2] at h1
      rw [h1]
      have hL : x.strict.length + 1 ≤ (toList x h).length := by
        simp [toList, hx, optElems]
      simp only [List.length_append, List.length_cons, List.length_nil]
      omega
  | case3 x hlen hx _ ih =>
      rw [makeStrictIdx_eq_adv h idx x hx hlen]
      have haT : allItr x := ha
      have hstep : (advanceTail (⟨x.strict, none, x.tails⟩ : LL α) h).strict =
          x.strict := by
        simp only [advanceTail]
        exact advanceGo_strict_allItr h x.strict x.tails (by simpa [allItr] using haT)
      have haA : allItr (advanceTail (⟨x.strict, none, x.tails⟩ : LL α) h) := by
        simp only [advanceTail, allItr]
        exact advanceGo_tails_all _ _ _ _ (by simpa [allItr] using haT)
      have h1 := ih (advanceTail_inv _ _) haA
      have h2 : toList (advanceTail (⟨x.strict, none, x.tails⟩ : LL α) h) h =
          toList x h := by
        rw [advanceTail_toList _ _ (by simp [optElems])]
        simp [toList, optElems, hx]
      rw [h2, hstep] at h1
      exact h1
  | case4 x l hx hlen =>
      rw [makeStrictIdx_eq_stop h idx x l hx hlen]
      omega


/-! ### C1: materialized prefix after an indexed read -/

/-- C1 (amended).  For a container built from any finite mix of sequence
and iterator sources and any index `i` below the final length, a read of
index `i` (strictness requirement `i`) preserves the logical contents,
materializes at least the first `i+1` elements, and the strict store is
always a prefix of the fully-flattened logical sequence; when every
source is an iterator source the strict store is *exactly* the first
`i+1` elements.  (The original claim's "no more" part fails for
sequence sources, which are spliced wholesale: see the counterexample.) -/
theorem C1_read_materializes_front (specs : List (Src α)) (i : Nat)
    (hi : i < (toList (build specs).1 (build specs).2).length) :
    toList (makeStrictIdx (build specs).2 i (build specs).1) (build specs).2 =
        toList (build specs).1 (build specs).2 ∧
    i + 1 ≤ (makeStrictIdx (build specs).2 i (build specs).1).strict.length ∧
    (makeStrictIdx (build specs).2 i (build specs).1).strict =
      (toList (build specs).1 (build specs).2).take
        (makeStrictIdx (build specs).2 i (build specs).1).strict.length ∧
    (specs.all isItrSrc →
      (makeStrictIdx (build specs).2 i (build specs).1).strict =
        (toList (build specs).1 (build specs).2).take (i + 1)) := by
  have hempty : Inv (LL.empty : LL α) := by intro hc; rfl
  have hrempty : refsOk (LL.empty : LL α) ([] : Heap α).length := by rfl
  have hb := buildFold_props specs LL.empty [] hempty hrempty
  have hbInv : Inv (build specs).1 := by simpa [build] using hb.2.1
  refine ⟨makeStrictIdx_toList _ _ _, ?_, ?_, ?_⟩
  · have hlen := makeStrictIdx_length (build specs).2 i (build specs).1 hbInv
    omega
  · have ht := strict_take_toList (makeStrictIdx (build specs).2 i (build specs).1)
      (build specs).2
    rwa [makeStrictIdx_toList] at ht
  · intro hall
    have haI : allItr (build specs).1 ∧ (build specs).1.strict = [] := by
      have := buildFold_allItr specs LL.empty [] (by rfl) hall
      exact ⟨by simpa [build] using this.2, by simpa [build, LL.empty] using this.1⟩
    have hlen := makeStrictIdx_length_allItr (build specs).2 i (build specs).1
      hbInv haI.1
    rw [haI.2] at hlen
    simp only [List.length_nil, Nat.max_eq_right (Nat.zero_le _)] at hlen
    have hmin : min (i + 1) (toList (build specs).1 (build specs).2).length = i + 1 := by
      omega
    rw [hmin] at hlen
    have ht := strict_take_toList (makeStrictIdx (build specs).2 i (build specs).1)
      (build specs).2
    rw [makeStrictIdx_toList, hlen] at ht
    exact ht

/-- C1 counterexample.  The claim as stated requires the strict store to
hold *exactly* the first `i+1` elements.  For the mixed build
`[iter([1]), [2,3]]` and `i = 1 < 3`, the read splices the whole pending
sequence source, leaving `strict = [1,2,3] ≠ [1,2]`. -/
theorem C1_counterexample :
    1 < (toList (build [Src.itr [1], Src.lst [2, 3]] : (LL Int × Heap Int)).1
        (build [Src.itr [1], Src.lst [2, 3]]).2).length ∧
    (makeStrictIdx (build [Src.itr ([1] : List Int), Src.lst [2, 3]]).2 1
        (build [Src.itr [1], Src.lst [2, 3]]).1).strict = [1, 2, 3] ∧
    (makeStrictIdx (build [Src.itr ([1] : List Int), Src.lst [2, 3]]).2 1
        (build [Src.itr [1], Src.lst [2, 3]]).1).strict ≠
      (toList (build [Src.itr [1], Src.lst [2, 3]] : (LL Int × Heap Int)).1
        (build [Src.itr [1], Src.lst [2, 3]]).2).take (1 + 1) := by
  refine ⟨by decide, ?_, ?_⟩ <;>
    simp [build, LL.empty, addTail, halloc, advanceTail, advanceGo,
      makeStrictIdx.eq_def, hget, toList, entryElems, optElems]

/-- C1 witness: the amended theorem applied to the concrete iterator-only
build `[iter([1,2])]` at `i = 0`. -/
theorem C1_witness :
    0 < (toList (build [Src.itr ([1, 2] : List Int)]).1
        (build [Src.itr [1, 2]]).2).length ∧
    (makeStrictIdx (build [Src.itr ([1, 2] : List Int)]).2 0
        (build [Src.itr [1, 2]]).1).strict =
      (toList (build [Src.itr ([1, 2] : List Int)]).1
        (build [Src.itr [1, 2]]).2).take (0 + 1) := by
  refine ⟨by decide, ?_⟩
  exact (C1_read_materializes_front [Src.itr ([1, 2] : List Int)] 0
    (by decide)).2.2.2 (by decide)

/-! ### C2: reversal law -/

theorem flatten_reverse_map (L : List (List α)) :
    (L.map List.reverse).reverse.flatten = L.flatten.reverse := by
  induction L with
  | nil => simp
  | cons x xs ih => simp [ih]

theorem entryElems_itr_comp (h h2 : Heap α) :
    (entryElems h2 ∘ fun e => Entry.itr (entryElems h e).reverse) =
      fun e : Entry α => (entryElems h e).reverse := by
  funext e
  cases e <;> rfl

theorem entryElems_itr (h : Heap α) (l : List α) :
    entryElems h (Entry.itr l) = l := rfl

theorem entryElems_ref (h : Heap α) (i : Nat) :
    entryElems h (Entry.ref i) = hget h i := rfl

theorem flatten_map_reverse (h : Heap α) (ts : List (Entry α)) :
    (ts.map (fun e => (entryElems h e).reverse)).reverse.flatten =
      (ts.map (entryElems h)).flatten.reverse := by
  have hm : ts.map (fun e => (entryElems h e).reverse) =
      (ts.map (entryElems h)).map List.reverse := by
    simp [List.map_map]
  rw [hm, flatten_reverse_map]

/-- C2.  Full materialization of `reverse()` yields exactly the reverse
of the original container's fully-flattened logical contents, for every
container state and heap — in particular regardless of how many strict,
active and pending sources it was built from. -/
theorem C2_reversal_law (s : LL α) (h : Heap α) :
    (makeStrictAll (reverse s h).1 (reverse s h).2).strict =
      (toList s h).reverse := by
  by_cases hemp : s.strict.isEmpty
  · have hso : s.strict = [] := List.isEmpty_iff.mp hemp
    have h1 : reverse s h = (advanceTail (⟨[], none,
        s.tails.reverse.map (fun e => Entry.itr (entryElems h e).reverse) ++
          (match s.tail with | some l => [Entry.itr l.reverse] | none => [])⟩ :
            LL α) h, h) := by
      simp [reverse, hemp]
    rw [h1]
    rw [makeStrictAll_toList _ _ (advanceTail_inv _ _)]
    rw [advanceTail_toList _ _ (by simp [optElems])]
    cases htl : s.tail with
    | none =>
        simp [toList, hso, htl, optElems, entryElems_itr_comp,
          flatten_map_reverse, entryElems_itr]
    | some l =>
        simp [toList, hso, htl, optElems, entryElems_itr_comp,
          flatten_map_reverse, entryElems_itr]
  · have h1 : reverse s h = (advanceTail (⟨[], none,
        (s.tails.reverse.map (fun e => Entry.itr (entryElems h e).reverse) ++
          (match s.tail with | some l => [Entry.itr l.reverse] | none => [])) ++
          [Entry.ref h.length]⟩ : LL α) (h ++ [s.strict.reverse]),
        h ++ [s.strict.reverse]) := by
      simp [reverse, hemp, halloc]
    rw [h1]
    rw [makeStrictAll_toList _ _ (advanceTail_inv _ _)]
    rw [advanceTail_toList _ _ (by simp [optElems])]
    cases htl : s.tail with
    | none =>
        simp [toList, htl, optElems, entryElems_itr_comp,
          flatten_map_reverse, entryElems_itr, entryElems_ref, hget_alloc]
    | some l =>
        simp [toList, htl, optElems, entryElems_itr_comp,
          flatten_map_reverse, entryElems_itr, entryElems_ref, hget_alloc]

/-! ### C3: repetition law -/

theorem map_entryElems_append (h hs : Heap α) (ts : List (Entry α))
    (hall : ts.all (entryOk h.length)) :
    ts.map (entryElems (h ++ hs)) = ts.map (entryElems h) := by
  refine List.map_congr_left ?_
  intro e he
  exact entryElems_append h hs e ((List.all_eq_true.mp hall) e he)

/-- The elements contributed by one repetition group of `__imul__`,
evaluated in the heap where the old strict list has been published:
exactly the original container's logical contents. -/
theorem repGroup_elems (s : LL α) (h : Heap α) (hr : refsOk s h.length) :
    ((repGroup s h.length).map (entryElems (h ++ [s.strict]))).flatten =
      toList s h := by
  have hm := map_entryElems_append h [s.strict] s.tails hr
  cases htl : s.tail with
  | none =>
      simp [repGroup, toList, htl, optElems, entryElems_ref, entryElems_itr,
        hget_alloc, hm]
  | some l =>
      simp [repGroup, toList, htl, optElems, entryElems_ref, entryElems_itr,
        hget_alloc, hm]

theorem rep_flatten (g : List (Entry α)) (E : Entry α → List α) (T : List α)
    (hg : (g.map E).flatten = T) (n : Nat) :
    ((List.replicate n g).flatten.map E).flatten = (List.replicate n T).flatten := by
  induction n with
  | zero => simp
  | succ m ih =>
      rw [List.replicate_succ, List.replicate_succ, List.flatten_cons,
        List.flatten_cons, List.map_append, List.flatten_append, hg, ih]

theorem imul_toList (s : LL α) (h : Heap α) (n : Nat) (hr : refsOk s h.length) :
    toList (imul s h n).1 (imul s h n).2 =
      (List.replicate n (toList s h)).flatten := by
  simp only [imul, halloc]
  rw [advanceTail_toList _ _ (by simp [optElems])]
  simp only [toList, List.nil_append, optElems]
  exact rep_flatten _ _ _ (repGroup_elems s h hr) n

/-- C3.  In-place multiplication by `n` followed by full materialization
yields the original container's fully-flattened contents concatenated
with itself `n` times (`n = 0` yields the empty sequence).  The
hypothesis states that the container's pending references point into the
heap, which holds for every container actually built by the engine. -/
theorem C3_repetition_law (s : LL α) (h : Heap α) (n : Nat)
    (hr : refsOk s h.length) :
    (makeStrictAll (imul s h n).1 (imul s h n).2).strict =
      (List.replicate n (toList s h)).flatten := by
  have hInv : Inv (imul s h n).1 := by
    simp only [imul, halloc]
    exact advanceTail_inv _ _
  rw [makeStrictAll_toList _ _ hInv]
  exact imul_toList s h n hr

/-- C3 witness: the repetition law applied to a concrete container with
a strict prefix, an active iterator and a pending list source. -/
theorem C3_witness :
    (makeStrictAll (imul (⟨[5], some [6], [Entry.ref 0]⟩ : LL Int) [[7]] 2).1
        (imul (⟨[5], some [6], [Entry.ref 0]⟩ : LL Int) [[7]] 2).2).strict =
      (List.replicate 2 (toList (⟨[5], some [6], [Entry.ref 0]⟩ : LL Int)
        [[7]])).flatten :=
  C3_repetition_law (⟨[5], some [6], [Entry.ref 0]⟩ : LL Int) [[7]] 2 (by decide)

/-! ### C6: lexicographic comparison -/

theorem lazyCmp_eq_zero_iff [LinearOrder α] (xs ys : List α) :
    lazyCmp xs ys = 0 ↔ xs = ys := by
  induction xs generalizing ys with
  | nil => cases ys <;> simp [lazyCmp]
  | cons x xs ih =>
      cases ys with
      | nil => simp [lazyCmp]
      | cons y ys =>
          by_cases hxy : x = y
          · simp [lazyCmp, hxy, ih]
          · by_cases hlt : x < y <;> simp [lazyCmp, hxy, hlt]

theorem lazyCmp_firstDiff [LinearOrder α] (p : List α) (x y : α)
    (xs ys : List α) :
    lazyCmp (p ++ x :: xs) (p ++ y :: ys) =
      if x = y then lazyCmp xs ys else if x < y then -1 else 1 := by
  induction p with
  | nil => simp [lazyCmp]
  | cons a p ih => simp [lazyCmp, ih]

theorem lazyCmp_shorter [LinearOrder α] (xs : List α) (y : α) (ys : List α) :
    lazyCmp xs (xs ++ y :: ys) = -1 ∧ lazyCmp (xs ++ y :: ys) xs = 1 := by
  induction xs with
  | nil => simp [lazyCmp]
  | cons a xs ih => simp [lazyCmp, ih]

/-- C6.  `__cmp__` is lexicographic over the flattened contents: the
result is decided at the first differing element pair; if one side
exhausts first the side with elements remaining is greater; equal
sequences (same lengths, same elements) compare equal.  Concretely, a
container built from `[1,2,3]` equals one built from `iter([1,2,3])`,
a container `[1,2]` is less than the list `[1,2,3]`, and a container
`[1,3]` is greater than the list `[1,2,3]`. -/
theorem C6_lexicographic_comparison :
    (∀ (α : Type) [LinearOrder α] (p : List α) (x y : α) (xs ys : List α),
      lazyCmp (p ++ x :: xs) (p ++ y :: ys) =
        if x = y then lazyCmp xs ys else if x < y then -1 else 1) ∧
    (∀ (α : Type) [LinearOrder α] (xs ys : List α),
      lazyCmp xs ys = 0 ↔ xs = ys) ∧
    (∀ (α : Type) [LinearOrder α] (xs : List α) (y : α) (ys : List α),
      lazyCmp xs (xs ++ y :: ys) = -1 ∧ lazyCmp (xs ++ y :: ys) xs = 1) ∧
    llCmp (build [Src.lst ([1, 2, 3] : List Int)]).1
      (⟨[], some [1, 2, 3], []⟩ : LL Int) (build [Src.lst [1, 2, 3]]).2 = 0 ∧
    llEq (build [Src.lst ([1, 2, 3] : List Int)]).1
      (⟨[], some [1, 2, 3], []⟩ : LL Int) (build [Src.lst [1, 2, 3]]).2 = true ∧
    llCmpList (build [Src.lst ([1, 2] : List Int)]).1
      (build [Src.lst [1, 2]]).2 [1, 2, 3] = -1 ∧
    llLt (build [Src.lst ([1, 2] : List Int)]).1
      (build [Src.lst [1, 2]]).2 [1, 2, 3] = true ∧
    llCmpList (build [Src.lst ([1, 3] : List Int)]).1
      (build [Src.lst [1, 3]]).2 [1, 2, 3] = 1 ∧
    llGt (build [Src.lst ([1, 3] : List Int)]).1
      (build [Src.lst [1, 3]]).2 [1, 2, 3] = true := by
  refine ⟨?_, ?_, ?_, by decide, by decide, by decide, by decide, by decide,
    by decide⟩
  · intro α inst p x y xs ys
    exact lazyCmp_firstDiff p x y xs ys
  · intro α inst xs ys
    exact lazyCmp_eq_zero_iff xs ys
  · intro α inst xs y ys
    exact lazyCmp_shorter xs y ys

/-! ### C8: insert -/

theorem insertIdx_append_left (A B : List α) (p : Nat) (v : α)
    (hp : p ≤ A.length) :
    (A ++ B).insertIdx p v = A.insertIdx p v ++ B := by
  induction A generalizing p with
  | nil =>
      have hp0 : p = 0 := by simpa using hp
      subst hp0
      simp [List.insertIdx_zero]
  | cons a A ih =>
      cases p with
      | zero => simp [List.insertIdx_zero]
      | succ q =>
          simp only [List.cons_append, List.insertIdx_succ_cons]
          rw [ih q (by simpa using hp)]

/-- C8 (amended).  For `i ≥ 1`, `insert(i, v)` invokes the strictness
engine with requirement `i-1` only, and the final logical contents are
the old contents with `v` placed at position `min i (old length)`; when
every pending source is an iterator, the strict store afterwards holds
exactly `max (previous strict length) (min i (total length))` old
elements plus the inserted one, so lazy elements at or after the
insertion point stay unmaterialized.  For `i ≤ 0`, `index - 1` is
negative and the engine fully materializes the container before
inserting. -/
theorem C8_insert (s : LL α) (h : Heap α) (i : Int) (v : α) (hInv : Inv s) :
    (1 ≤ i → toList (insert s h i v) h =
      (toList s h).insertIdx (min i.toNat (toList s h).length) v) ∧
    (1 ≤ i → allItr s →
      (insert s h i v).strict.length =
        max s.strict.length (min i.toNat (toList s h).length) + 1) ∧
    (i ≤ 0 → (insert s h i v).tail = none ∧ (insert s h i v).tails = []) := by
  refine ⟨?_, ?_, ?_⟩
  · intro hi
    have hms : insert s h i v =
        ⟨(makeStrictIdx h (i - 1).toNat s).strict.insertIdx
          (min i.toNat (makeStrictIdx h (i - 1).toNat s).strict.length) v,
          (makeStrictIdx h (i - 1).toNat s).tail,
          (makeStrictIdx h (i - 1).toNat s).tails⟩ := by
      simp only [insert, makeStrictInt, pyInsertPos]
      rw [if_neg (by omega), if_neg (by omega)]
    rw [hms]
    have h1 : toList (makeStrictIdx h (i - 1).toNat s) h = toList s h :=
      makeStrictIdx_toList h (i - 1).toNat s
    have h3 : min i.toNat (toList s h).length ≤
        (makeStrictIdx h (i - 1).toNat s).strict.length := by
      have hlen := makeStrictIdx_length h (i - 1).toNat s hInv
      have ht : (i - 1).toNat + 1 = i.toNat := by omega
      omega
    have hAB : toList s h = (makeStrictIdx h (i - 1).toNat s).strict ++
        (optElems (makeStrictIdx h (i - 1).toNat s).tail ++
          ((makeStrictIdx h (i - 1).toNat s).tails.map (entryElems h)).flatten) := by
      rw [← h1]
      simp [toList]
    have h4 : (makeStrictIdx h (i - 1).toNat s).strict.length ≤
        (toList s h).length := by
      rw [hAB]
      simp
    by_cases hc : i.toNat ≤ (makeStrictIdx h (i - 1).toNat s).strict.length
    · have hp0 : min i.toNat (toList s h).length = i.toNat := by omega
      have hp1 : min i.toNat (makeStrictIdx h (i - 1).toNat s).strict.length =
          i.toNat := by omega
      rw [hp0, hp1, hAB, insertIdx_append_left _ _ _ _ hc]
      simp [toList]
    · have hL : (toList s h).length =
          (makeStrictIdx h (i - 1).toNat s).strict.length := by omega
      have hB : optElems (makeStrictIdx h (i - 1).toNat s).tail ++
          ((makeStrictIdx h (i - 1).toNat s).tails.map (entryElems h)).flatten =
            [] := by
        have := congrArg List.length hAB
        simp only [List.length_append] at this
        have hz : (optElems (makeStrictIdx h (i - 1).toNat s).tail ++
            ((makeStrictIdx h (i - 1).toNat s).tails.map (entryElems h)).flatten).length
              = 0 := by
          simp only [List.length_append]
          omega
        exact List.eq_nil_of_length_eq_zero hz
      have hp0 : min i.toNat (toList s h).length =
          (makeStrictIdx h (i - 1).toNat s).strict.length := by omega
      have hp1 : min i.toNat (makeStrictIdx h (i - 1).toNat s).strict.length =
          (makeStrictIdx h (i - 1).toNat s).strict.length := by omega
      rw [hp0, hp1]
      have hgoal : toList (⟨(makeStrictIdx h (i - 1).toNat s).strict.insertIdx
          ((makeStrictIdx h (i - 1).toNat s).strict.length) v,
          (makeStrictIdx h (i - 1).toNat s).tail,
          (makeStrictIdx h (i - 1).toNat s).tails⟩ : LL α) h =
          (makeStrictIdx h (i - 1).toNat s).strict.insertIdx
            ((makeStrictIdx h (i - 1).toNat s).strict.length) v := by
        simp only [toList, List.append_assoc]
        rw [hB, List.append_nil]
      rw [hgoal, hAB, hB, List.append_nil]
  · intro hi hall
    have hms : (insert s h i v).strict =
        (makeStrictIdx h (i - 1).toNat s).strict.insertIdx
          (min i.toNat (makeStrictIdx h (i - 1).toNat s).strict.length) v := by
      simp only [insert, makeStrictInt, pyInsertPos]
      rw [if_neg (by omega), if_neg (by omega)]
    rw [hms]
    have hlen := makeStrictIdx_length_allItr h (i - 1).toNat s hInv hall
    have ht : (i - 1).toNat + 1 = i.toNat := by omega
    rw [List.length_insertIdx _ _ (by omega)]
    omega
  · intro hi
    have hms : makeStrictInt h (i - 1) s = makeStrictAll s h := by
      simp only [makeStrictInt]
      rw [if_pos (by omega)]
    have := makeStrictAll_tail s h hInv
    simp only [insert, hms]
    exact this

/-- C8 counterexample.  For `i = 0` on the lazy container built from
`iter([1,2,3])` (nothing materialized, three lazy elements), the claim
requires the elements at or after the insertion point to stay lazy; the
implementation instead passes requirement `-1` to the strictness engine,
which fully materializes all three elements before inserting. -/
theorem C8_counterexample :
    (build [Src.itr ([1, 2, 3] : List Int)]).1.strict = [] ∧
    (build [Src.itr ([1, 2, 3] : List Int)]).1.tail = some [1, 2, 3] ∧
    insert (build [Src.itr ([1, 2, 3] : List Int)]).1
        (build [Src.itr [1, 2, 3]]).2 0 99 =
      ⟨[99, 1, 2, 3], none, []⟩ := by
  refine ⟨by decide, by decide, ?_⟩
  simp [build, LL.empty, addTail, advanceTail, advanceGo, insert,
    makeStrictInt, makeStrictAll, pyInsertPos, optElems, List.insertIdx_zero]

/-- C8 witness: the amended insert law applied at `i = 2` to the
container built from `iter([1,2,3])`. -/
theorem C8_witness :
    toList (insert (build [Src.itr ([1, 2, 3] : List Int)]).1
        (build [Src.itr [1, 2, 3]]).2 2 99) (build [Src.itr [1, 2, 3]]).2 =
      (toList (build [Src.itr ([1, 2, 3] : List Int)]).1
        (build [Src.itr [1, 2, 3]]).2).insertIdx
        (min (2 : Int).toNat (toList (build [Src.itr ([1, 2, 3] : List Int)]).1
          (build [Src.itr [1, 2, 3]]).2).length) 99 ∧
    (insert (build [Src.itr ([1, 2, 3] : List Int)]).1
        (build [Src.itr [1, 2, 3]]).2 2 99).strict.length =
      max (build [Src.itr ([1, 2, 3] : List Int)]).1.strict.length
        (min (2 : Int).toNat (toList (build [Src.itr ([1, 2, 3] : List Int)]).1
          (build [Src.itr [1, 2, 3]]).2).length) + 1 :=
  ⟨(C8_insert (build [Src.itr ([1, 2, 3] : List Int)]).1
      (build [Src.itr [1, 2, 3]]).2 2 99 (by unfold Inv; decide)).1 (by decide),
    (C8_insert (build [Src.itr ([1, 2, 3] : List Int)]).1
      (build [Src.itr [1, 2, 3]]).2 2 99 (by unfold Inv; decide)).2.1 (by decide)
      (by decide)⟩

/-! ### C10: the two paths of `index` -/

theorem scanTrue_none_of_ge [DecidableEq α] (v : α) (lo hi : Int) (l : List α)
    (k : Nat) (hk : hi ≤ (k : Int)) :
    indexScanFrom v lo hi true l k = none := by
  induction l generalizing k with
  | nil => rfl
  | cons x xs ih =>
      simp only [indexScanFrom, if_true]
      rw [if_neg (by rintro ⟨h1, h2, h3⟩; omega)]
      exact ih (k + 1) (by omega)

theorem scan_paths [DecidableEq α] (v : α) (lo hi : Int) (l : List α) (k : Nat) :
    (∀ p, indexScanFrom v lo hi true l k = some p →
      indexScanFrom v lo hi false l k = some p) ∧
    (∀ p, indexScanFrom v lo hi false l k = some p → (p : Int) ≠ hi →
      indexScanFrom v lo hi true l k = some p) ∧
    (indexScanFrom v lo hi false l k = none →
      indexScanFrom v lo hi true l k = none) := by
  induction l generalizing k with
  | nil =>
      refine ⟨fun p hp => ?_, fun p hp _ => ?_, fun _ => rfl⟩
      · simp [indexScanFrom] at hp
      · simp [indexScanFrom] at hp
  | cons x xs ih =>
      refine ⟨?_, ?_, ?_⟩
      · intro p hp
        by_cases hS : lo ≤ (k : Int) ∧ (k : Int) < hi ∧ x = v
        · simp only [indexScanFrom, if_true, Bool.false_eq_true, if_false] at hp
          rw [if_pos hS] at hp
          simp only [indexScanFrom, if_true, Bool.false_eq_true, if_false]
          rw [if_pos ⟨hS.1, le_of_lt hS.2.1, hS.2.2⟩]
          exact hp
        · simp only [indexScanFrom, if_true, Bool.false_eq_true, if_false] at hp
          rw [if_neg hS] at hp
          by_cases hL : lo ≤ (k : Int) ∧ (k : Int) ≤ hi ∧ x = v
          · have hkhi : hi ≤ ((k + 1 : Nat) : Int) := by
              rcases hL with ⟨a, b, c⟩
              by_cases hlt : (k : Int) < hi
              · exact absurd ⟨a, hlt, c⟩ hS
              · push_cast
                omega
            rw [scanTrue_none_of_ge v lo hi xs (k + 1) hkhi] at hp
            exact absurd hp (by simp)
          · simp only [indexScanFrom, if_true, Bool.false_eq_true, if_false]
            rw [if_neg hL]
            exact (ih (k + 1)).1 p hp
      · intro p hp hne
        by_cases hL : lo ≤ (k : Int) ∧ (k : Int) ≤ hi ∧ x = v
        · simp only [indexScanFrom, if_true, Bool.false_eq_true, if_false] at hp
          rw [if_pos hL] at hp
          have hpk : k = p := by simpa using hp
          subst hpk
          simp only [indexScanFrom, if_true, Bool.false_eq_true, if_false]
          rw [if_pos ⟨hL.1, by rcases hL with ⟨a, b, c⟩; omega, hL.2.2⟩]
        · simp only [indexScanFrom, if_true, Bool.false_eq_true, if_false] at hp
          rw [if_neg hL] at hp
          have hS : ¬(lo ≤ (k : Int) ∧ (k : Int) < hi ∧ x = v) := by
            rintro ⟨a, b, c⟩
            exact hL ⟨a, le_of_lt b, c⟩
          simp only [indexScanFrom, if_true, Bool.false_eq_true, if_false]
          rw [if_neg hS]
          exact (ih (k + 1)).2.1 p hp hne
      · intro hp
        simp only [indexScanFrom, if_true, Bool.false_eq_true, if_false] at hp
        by_cases hL : lo ≤ (k : Int) ∧ (k : Int) ≤ hi ∧ x = v
        · rw [if_pos hL] at hp
          exact absurd hp (by simp)
        · rw [if_neg hL] at hp
          have hS : ¬(lo ≤ (k : Int) ∧ (k : Int) < hi ∧ x = v) := by
            rintro ⟨a, b, c⟩
            exact hL ⟨a, le_of_lt b, c⟩
          simp only [indexScanFrom, if_true, Bool.false_eq_true, if_false]
          rw [if_neg hS]
          exact (ih (k + 1)).2.2 hp

/-- C10 (amended).  For non-negative bounds, `index`'s strict-path
(delegation to CPython `list.index`, upper bound exclusive) and its
lazy-path (own enumeration, upper bound *inclusive*) agree on the same
contents except that the lazy path additionally accepts an occurrence at
position exactly `stop`: every strict-path success is returned
identically by the lazy path, a lazy-path success at a position other
than `stop` is returned identically by the strict path, and a lazy-path
failure is a strict-path failure. -/
theorem C10_index_two_paths [DecidableEq α] (v : α) (start stop : Nat)
    (l : List α) :
    (∀ p, llIndex (⟨l, none, []⟩ : LL α) [] v start stop = some p →
      llIndex (⟨[], some l, []⟩ : LL α) [] v start stop = some p) ∧
    (∀ p, llIndex (⟨[], some l, []⟩ : LL α) [] v start stop = some p →
      (p : Int) ≠ stop →
      llIndex (⟨l, none, []⟩ : LL α) [] v start stop = some p) ∧
    (llIndex (⟨[], some l, []⟩ : LL α) [] v start stop = none →
      llIndex (⟨l, none, []⟩ : LL α) [] v start stop = none) := by
  have hstrict : llIndex (⟨l, none, []⟩ : LL α) [] v start stop =
      indexScanFrom v start stop true l 0 := by
    simp only [llIndex, isStrict, pyListIndex]
    rw [if_pos (by simp)]
    rw [if_neg (by omega), if_neg (by omega)]
  have hlazy : llIndex (⟨[], some l, []⟩ : LL α) [] v start stop =
      indexScanFrom v start stop false l 0 := by
    simp only [llIndex, isStrict, toList, optElems]
    rw [if_neg (by simp)]
    simp
  rw [hstrict, hlazy]
  exact scan_paths v start stop l 0

/-- C10 counterexample.  On identical contents `[5]` (one container
fully strict, one still lazy), `index(5, 0, 0)` raises ValueError on the
strict path (stop is exclusive there) but returns 0 on the lazy path
(stop is inclusive there) — the two paths disagree. -/
theorem C10_counterexample :
    toList (build [Src.lst ([5] : List Int)]).1 (build [Src.lst [5]]).2 =
      toList (build [Src.itr ([5] : List Int)]).1 (build [Src.itr [5]]).2 ∧
    isStrict (build [Src.lst ([5] : List Int)]).1 = true ∧
    isStrict (build [Src.itr ([5] : List Int)]).1 = false ∧
    llIndex (build [Src.lst ([5] : List Int)]).1 (build [Src.lst [5]]).2
      5 0 0 = none ∧
    llIndex (build [Src.itr ([5] : List Int)]).1 (build [Src.itr [5]]).2
      5 0 0 = some 0 := by
  decide

/-- C10 witness: the amended equivalence applied to contents `[5]` with
bounds `start = 0`, `stop = 1`: the lazy path finds position 0 which is
not `stop`, so the strict path returns the same position. -/
theorem C10_witness :
    llIndex (⟨[], some [5], []⟩ : LL Int) [] 5 0 1 = some 0 ∧
    llIndex (⟨[5], none, []⟩ : LL Int) [] 5 0 1 = some 0 :=
  ⟨by decide, (C10_index_two_paths 5 0 1 [5]).2.1 0 (by decide) (by decide)⟩

/-! ### C9: the tail/tails invariant -/

theorem makeStrictInt_inv (h : Heap α) (i : Int) (s : LL α) (hs : Inv s) :
    Inv (makeStrictInt h i s) := by
  simp only [makeStrictInt]
  split
  · exact makeStrictAll_inv _ _ hs
  · exact makeStrictIdx_inv _ _ _ hs

theorem append_inv (s : LL α) (h : Heap α) (v : α) (hs : Inv s) :
    Inv (append s h v).1 := by
  by_cases hstr : isStrict s
  · intro hn
    simp only [append, if_pos hstr] at hn ⊢
    exact hs hn
  · rcases hlast : s.tails.getLast? with _ | e
    · intro hn
      have ha := addTail_inv s h (Src.lst [v])
      simp only [append, if_neg hstr, hlast] at hn ⊢
      exact ha hn
    · cases e with
      | ref i =>
          intro hn
          simp only [append, if_neg hstr, hlast] at hn ⊢
          exact hs hn
      | itr l =>
          intro hn
          have ha := addTail_inv s h (Src.lst [v])
          simp only [append, if_neg hstr, hlast] at hn ⊢
          exact ha hn

theorem imul_inv (s : LL α) (h : Heap α) (n : Nat) : Inv (imul s h n).1 := by
  simp only [imul, halloc]
  exact advanceTail_inv _ _

theorem reverse_inv (s : LL α) (h : Heap α) : Inv (reverse s h).1 := by
  simp only [reverse]
  split
  · exact advanceTail_inv _ _
  · exact advanceTail_inv _ _

theorem copy_inv (s : LL α) (h : Heap α) (hs : Inv s) :
    Inv (copy s h).1 ∧ Inv (copy s h).2.1 := by
  constructor
  · intro hn
    simp only [copy] at hn ⊢
    rw [hs hn]
    rfl
  · intro hn
    simp only [copy] at hn ⊢
    rw [hs hn]
    rfl

theorem insert_inv (s : LL α) (h : Heap α) (i : Int) (v : α) (hs : Inv s) :
    Inv (insert s h i v) := by
  intro hn
  simp only [insert] at hn ⊢
  exact makeStrictInt_inv h (i - 1) s hs hn

theorem pop_inv (s : LL α) (h : Heap α) (i : Int) (hs : Inv s) :
    Inv (pop s h i) := by
  have hInv : Inv (if 0 < i then makeStrictIdx h i.toNat s else makeStrictAll s h) := by
    split
    · exact makeStrictIdx_inv _ _ _ hs
    · exact makeStrictAll_inv _ _ hs
  simp only [pop]
  split
  · intro hn
    exact hInv hn
  · exact hInv

theorem delitem_inv (s : LL α) (h : Heap α) (i : Int) (hs : Inv s) :
    Inv (delitem s h i) := by
  have hInv := makeStrictInt_inv h i s hs
  simp only [delitem]
  split
  · intro hn
    exact hInv hn
  · exact hInv

theorem setitem_inv (s : LL α) (h : Heap α) (i : Int) (v : α) (hs : Inv s) :
    Inv (setitem s h i v) := by
  have hInv := makeStrictInt_inv h i s hs
  simp only [setitem]
  split
  · intro hn
    exact hInv hn
  · exact hInv

/-- C9.  In every state satisfying the invariant "no active tail implies
no pending sources", the invariant is preserved by every public
operation (and holds in the freshly-constructed empty container and
after `_advance_tail` unconditionally); consequently `_is_strict` is
equivalent to `_tail is None`, and `_make_strict`'s early return when
`_tail is None` is sound: the container is then fully strict and its
contents are exactly the strict store. -/
theorem C9_tail_invariant (s : LL α) (h : Heap α) (hs : Inv s) :
    Inv (LL.empty : LL α) ∧
    Inv (advanceTail s h) ∧
    (∀ src : Src α, Inv (addTail s h src).1) ∧
    (∀ v : α, Inv (append s h v).1) ∧
    (∀ idx : Nat, Inv (makeStrictIdx h idx s)) ∧
    Inv (makeStrictAll s h) ∧
    (∀ i : Int, Inv (makeStrictInt h i s)) ∧
    (∀ i : Int, Inv (getitem s h i)) ∧
    (∀ (i : Int) (v : α), Inv (setitem s h i v)) ∧
    (∀ i : Int, Inv (delitem s h i)) ∧
    (∀ (i : Int) (v : α), Inv (insert s h i v)) ∧
    (∀ i : Int, Inv (pop s h i)) ∧
    Inv (copy s h).1 ∧
    Inv (copy s h).2.1 ∧
    (∀ n : Nat, Inv (imul s h n).1) ∧
    Inv (reverse s h).1 ∧
    Inv (clear s) ∧
    (isStrict s = true ↔ s.tail = none) ∧
    (s.tail = none →
      (∀ idx : Nat, makeStrictIdx h idx s = s) ∧ makeStrictAll s h = s ∧
        toList s h = s.strict) := by
  refine ⟨fun _ => rfl, advanceTail_inv s h, fun src => addTail_inv s h src,
    fun v => append_inv s h v hs, fun idx => makeStrictIdx_inv h idx s hs,
    makeStrictAll_inv s h hs, fun i => makeStrictInt_inv h i s hs,
    fun i => makeStrictInt_inv h i s hs, fun i v => setitem_inv s h i v hs,
    fun i => delitem_inv s h i hs, fun i v => insert_inv s h i v hs,
    fun i => pop_inv s h i hs, (copy_inv s h hs).1, (copy_inv s h hs).2,
    fun n => imul_inv s h n, reverse_inv s h, fun _ => rfl, ?_, ?_⟩
  · constructor
    · intro hb
      simp only [isStrict, Bool.and_eq_true, Option.isNone_iff_eq_none] at hb
      exact hb.1
    · intro hn
      simp [isStrict, hn, hs hn]
  · intro hn
    refine ⟨fun idx => makeStrictIdx_eq_none h idx s hn, ?_, ?_⟩
    · obtain ⟨st, tl, ts⟩ := s
      subst hn
      rfl
    · simp [toList, hn, hs hn, optElems]

/-- C9 witness: the invariant statement applied to a concrete container
with a strict prefix, an active iterator and one pending source. -/
theorem C9_witness :
    Inv (append (⟨[1], some [2], [Entry.itr [3]]⟩ : LL Int) [] 9).1 ∧
    (isStrict (⟨[1], some [2], [Entry.itr [3]]⟩ : LL Int) = true ↔
      (⟨[1], some [2], [Entry.itr [3]]⟩ : LL Int).tail = none) :=
  ⟨(C9_tail_invariant (⟨[1], some [2], [Entry.itr [3]]⟩ : LL Int) []
      (by unfold Inv; decide)).2.2.2.1 9,
    (C9_tail_invariant (⟨[1], some [2], [Entry.itr [3]]⟩ : LL Int) []
      (by unfold Inv; decide)).2.2.2.2.2.2.2.2.2.2.2.2.2.2.2.2.2.1⟩

/-! ### C5: repetition followed by append -/

theorem advanceGo_tails_last_itr (h : Heap α) (st : List α) (ts : List (Entry α))
    (l : List α) (hl : ts.getLast? = some (Entry.itr l)) :
    (advanceGo h st ts).2.2 = [] ∨
      (advanceGo h st ts).2.2.getLast? = some (Entry.itr l) := by
  induction ts generalizing st with
  | nil => simp at hl
  | cons e rest ih =>
      cases e with
      | ref i =>
          cases rest with
          | nil => simp at hl
          | cons b bs =>
              rw [List.getLast?_cons_cons] at hl
              simpa [advanceGo] using ih (st ++ hget h i) hl
      | itr l2 =>
          cases rest with
          | nil =>
              left
              simp [advanceGo]
          | cons b bs =>
              right
              rw [List.getLast?_cons_cons] at hl
              simpa [advanceGo] using hl

theorem advanceGo_tails_all_ref (h : Heap α) (st : List α) (ts : List (Entry α))
    (hall : ∀ e ∈ ts, ∃ i, e = Entry.ref i) :
    (advanceGo h st ts).2.2 = [] := by
  induction ts generalizing st with
  | nil => simp [advanceGo]
  | cons e rest ih =>
      obtain ⟨i, rfl⟩ := hall e (by simp)
      simp only [advanceGo]
      exact ih _ (fun e he => hall e (by simp [he]))

/-- Lemma: `append` puts `v` at the very end of the logical contents whenever
the last pending entry is not a (possibly shared) list object. -/
theorem append_toList (s : LL α) (h : Heap α) (v : α) (hr : refsOk s h.length)
    (hlast : ∀ i, s.tails.getLast? ≠ some (Entry.ref i)) :
    toList (append s h v).1 (append s h v).2 = toList s h ++ [v] := by
  by_cases hstr : isStrict s
  · have h1 : s.tail = none ∧ s.tails = [] := by
      simpa [isStrict, Bool.and_eq_true, Option.isNone_iff_eq_none,
        List.isEmpty_iff] using hstr
    simp [append, hstr, toList, h1.1, h1.2, optElems]
  · rcases hlastv : s.tails.getLast? with _ | e
    · have hm : append s h v = addTail s h (Src.lst [v]) := by
        simp [append, hstr, hlastv]
      rw [hm, addTail_toList s h _ hr]
      rfl
    · cases e with
      | ref i => exact absurd hlastv (hlast i)
      | itr l =>
          have hm : append s h v = addTail s h (Src.lst [v]) := by
            simp [append, hstr, hlastv]
          rw [hm, addTail_toList s h _ hr]
          rfl

theorem imul_refsOk (s : LL α) (h : Heap α) (n : Nat) (hr : refsOk s h.length) :
    refsOk (imul s h n).1 (imul s h n).2.length := by
  simp only [imul, halloc, refsOk, advanceTail]
  apply advanceGo_tails_all
  refine List.all_eq_true.mpr ?_
  intro e he
  rw [List.mem_flatten] at he
  obtain ⟨g, hg, heg⟩ := he
  rw [List.mem_replicate] at hg
  rw [hg.2] at heg
  simp only [repGroup, List.mem_cons, List.mem_append] at heg
  rcases heg with hcur | hcur
  · subst hcur
    simp [entryOk, halloc]
  · rcases hcur with hcur | hcur
    · cases htl : s.tail with
      | none => rw [htl] at hcur; simp at hcur
      | some t =>
          rw [htl] at hcur
          simp at hcur
          subst hcur
          simp [entryOk]
    · have := (List.all_eq_true.mp hr) e hcur
      exact entryOk_mono h.length (h ++ [s.strict]).length (by simp) e this

theorem imul_last_ok (s : LL α) (h : Heap α) (n : Nat)
    (hlast : s.tails = [] ∨ ∃ l, s.tails.getLast? = some (Entry.itr l)) :
    ∀ i, (imul s h n).1.tails.getLast? ≠ some (Entry.ref i) := by
  intro i
  simp only [imul, halloc, advanceTail]
  cases n with
  | zero => simp [advanceGo]
  | succ m =>
      have hgrp : ∀ l : List α, (repGroup s h.length).getLast? =
          some (Entry.itr l) →
          ((List.replicate (m + 1) (repGroup s h.length)).flatten).getLast? =
            some (Entry.itr l) := by
        intro l hgl
        rw [List.replicate_succ', List.flatten_append]
        rw [List.getLast?_append_of_ne_nil _ (by simp [repGroup])]
        simpa using hgl
      rcases hlast with htE | ⟨l, hl⟩
      · cases htl : s.tail with
        | none =>
            have hempty : (advanceGo (h ++ [s.strict]) []
                ((List.replicate (m + 1) (repGroup s h.length)).flatten)).2.2 =
                  [] := by
              apply advanceGo_tails_all_ref
              intro e he
              rw [List.mem_flatten] at he
              obtain ⟨g, hg, heg⟩ := he
              rw [List.mem_replicate] at hg
              rw [hg.2] at heg
              simp [repGroup, htE, htl] at heg
              exact ⟨h.length, heg⟩
            simp [hempty]
        | some t =>
            have hgl : (repGroup s h.length).getLast? = some (Entry.itr t) := by
              simp [repGroup, htE, htl]
            have hflat := hgrp t hgl
            rcases advanceGo_tails_last_itr (h ++ [s.strict]) [] _ t hflat with
              h0 | h0 <;> simp [h0]
      · have hne : s.tails ≠ [] := by
          intro hc
          rw [hc] at hl
          simp at hl
        have hgl : (repGroup s h.length).getLast? = some (Entry.itr l) := by
          have hshape : repGroup s h.length =
              (Entry.ref h.length ::
                (match s.tail with | some t => [Entry.itr t] | none => [])) ++
                s.tails := by
            simp [repGroup]
          rw [hshape, List.getLast?_append_of_ne_nil _ hne]
          exact hl
        have hflat := hgrp l hgl
        rcases advanceGo_tails_last_itr (h ++ [s.strict]) [] _ l hflat with
          h0 | h0 <;> simp [h0]

/-- C5 (amended).  `__imul__` tees iterator sources into `n`
independent copies but *aliases* list sources (including the published
old strict list): the same list object is placed in every repetition
group.  Provided the last entry of the original pending queue is not a
list object (in particular when the queue is empty or ends in an
iterator), a subsequent `append(v)` after `multiply(n)` yields the
original contents repeated `n` times with `v` exactly once at the very
end.  When the last pending entry is a shared list object, `append`
mutates it in place and `v` appears in every repetition (see the
counterexample). -/
theorem C5_imul_then_append (s : LL α) (h : Heap α) (n : Nat) (v : α)
    (hr : refsOk s h.length)
    (hlast : s.tails = [] ∨ ∃ l, s.tails.getLast? = some (Entry.itr l)) :
    toList (append (imul s h n).1 (imul s h n).2 v).1
        (append (imul s h n).1 (imul s h n).2 v).2 =
      (List.replicate n (toList s h)).flatten ++ [v] := by
  rw [append_toList _ _ _ (imul_refsOk s h n hr) (imul_last_ok s h n hlast),
    imul_toList s h n hr]

/-- C5 counterexample.  For the container built from `iter([1])` and the
sequence source `[2]`, in-place multiplication by 2 aliases the pending
list object in both repetition groups; a single `append(7)` then mutates
that shared object, and full materialization yields `[1,2,7,1,2,7]` —
`7` appears twice, not once at the end as the claim requires
(`[1,2,1,2,7]`). -/
theorem C5_counterexample :
    toList (build [Src.itr ([1] : List Int), Src.lst [2]]).1
        (build [Src.itr [1], Src.lst [2]]).2 = [1, 2] ∧
    (makeStrictAll
        (append (imul (build [Src.itr ([1] : List Int), Src.lst [2]]).1
            (build [Src.itr [1], Src.lst [2]]).2 2).1
          (imul (build [Src.itr ([1] : List Int), Src.lst [2]]).1
            (build [Src.itr [1], Src.lst [2]]).2 2).2 7).1
        (append (imul (build [Src.itr ([1] : List Int), Src.lst [2]]).1
            (build [Src.itr [1], Src.lst [2]]).2 2).1
          (imul (build [Src.itr ([1] : List Int), Src.lst [2]]).1
            (build [Src.itr [1], Src.lst [2]]).2 2).2 7).2).strict =
      [1, 2, 7, 1, 2, 7] := by
  decide

/-- C5 witness: the amended law applied to a container whose pending
queue ends in an iterator source. -/
theorem C5_witness :
    toList (append (imul (⟨[], some [1], [Entry.itr [3]]⟩ : LL Int) [] 2).1
        (imul (⟨[], some [1], [Entry.itr [3]]⟩ : LL Int) [] 2).2 7).1
      (append (imul (⟨[], some [1], [Entry.itr [3]]⟩ : LL Int) [] 2).1
        (imul (⟨[], some [1], [Entry.itr [3]]⟩ : LL Int) [] 2).2 7).2 =
      (List.replicate 2 (toList (⟨[], some [1], [Entry.itr [3]]⟩ : LL Int) [])).flatten
        ++ [7] :=
  C5_imul_then_append (⟨[], some [1], [Entry.itr [3]]⟩ : LL Int) [] 2 7
    (by decide) (Or.inr ⟨[3], rfl⟩)

/-! ### C7: upstream failures during materialization -/

theorem fmakeStrictIdx_eq_none (idx : Nat) (s : FLL ε α) (hx : s.tail = none) :
    fmakeStrictIdx idx s = (s, none) := by
  obtain ⟨st, tl, ts⟩ := s
  subst hx
  rw [fmakeStrictIdx.eq_def]

theorem fmakeStrictIdx_eq_ok (idx : Nat) (s : FLL ε α) (x : α)
    (rest : List (Except ε α)) (hx : s.tail = some (Except.ok x :: rest))
    (hlen : s.strict.length ≤ idx) :
    fmakeStrictIdx idx s =
      fmakeStrictIdx idx ⟨s.strict ++ [x], some rest, s.tails⟩ := by
  obtain ⟨st, tl, ts⟩ := s
  subst hx
  rw [fmakeStrictIdx.eq_def]
  simp only at hlen
  simp [hlen]

theorem fmakeStrictIdx_eq_err (idx : Nat) (s : FLL ε α) (e : ε)
    (rest : List (Except ε α)) (hx : s.tail = some (Except.error e :: rest))
    (hlen : s.strict.length ≤ idx) :
    fmakeStrictIdx idx s = (⟨s.strict, some rest, s.tails⟩, some e) := by
  obtain ⟨st, tl, ts⟩ := s
  subst hx
  rw [fmakeStrictIdx.eq_def]
  simp only at hlen
  simp [hlen]

theorem fmakeStrictIdx_eq_adv (idx : Nat) (s : FLL ε α)
    (hx : s.tail = some []) (hlen : s.strict.length ≤ idx) :
    fmakeStrictIdx idx s =
      fmakeStrictIdx idx (fadvance ⟨s.strict, none, s.tails⟩) := by
  obtain ⟨st, tl, ts⟩ := s
  subst hx
  rw [fmakeStrictIdx.eq_def]
  simp only at hlen
  simp [hlen]

theorem fmakeStrictIdx_eq_stop (idx : Nat) (s : FLL ε α)
    (l : List (Except ε α)) (hx : s.tail = some l)
    (hlen : ¬ s.strict.length ≤ idx) :
    fmakeStrictIdx idx s = (s, none) := by
  obtain ⟨st, tl, ts⟩ := s
  subst hx
  rw [fmakeStrictIdx.eq_def]
  simp only at hlen
  simp [hlen]

theorem fadvanceGo_stream (strict : List α) (ts : List (FEntry ε α)) :
    ∃ spl : List α, (fadvanceGo strict ts).1 = strict ++ spl ∧
      ftsStream ts = spl.map Except.ok ++
        (foptElems (fadvanceGo strict ts).2.1 ++
          ftsStream (fadvanceGo strict ts).2.2) := by
  induction ts generalizing strict with
  | nil =>
      exact ⟨[], by simp [fadvanceGo], by simp [fadvanceGo, ftsStream, foptElems]⟩
  | cons e rest ih =>
      cases e with
      | lst l =>
          obtain ⟨spl, h1, h2⟩ := ih (strict ++ l)
          refine ⟨l ++ spl, ?_, ?_⟩
          · simp only [fadvanceGo]
            rw [h1, List.append_assoc]
          · simp only [fadvanceGo, ftsStream, List.map_cons, List.flatten_cons]
            simp only [ftsStream] at h2
            rw [h2]
            simp
      | itr l =>
          refine ⟨[], by simp [fadvanceGo], ?_⟩
          simp [fadvanceGo, ftsStream, foptElems]

/-- C7 (amended, index path).  When an indexed materialization is
aborted by an upstream failure, the failure propagates unmodified, the
strict store holds exactly the old elements plus every value pulled
before the failing position, and the remaining stream is exactly what
follows the failure — no rollback, no extra elements.  (The full-path
`_make_strict(None)` does NOT satisfy this: see the counterexample.) -/
theorem C7_index_failure_exact (idx : Nat) (s : FLL ε α) (s' : FLL ε α) (e : ε)
    (hrun : fmakeStrictIdx idx s = (s', some e)) :
    ∃ pre post, fstream s = pre.map Except.ok ++ Except.error e :: post ∧
      s'.strict = s.strict ++ pre ∧ fstream s' = post := by
  induction s using fmakeStrictIdx.induct idx with
  | case1 x hx =>
      rw [fmakeStrictIdx_eq_none idx x hx] at hrun
      simp at hrun
  | case2 x hlen v rest hx _ ih =>
      rw [fmakeStrictIdx_eq_ok idx x v rest hx hlen] at hrun
      obtain ⟨pre, post, h1, h2, h3⟩ := ih hrun
      refine ⟨v :: pre, post, ?_, ?_, h3⟩
      · have hfx : fstream x = Except.ok v ::
            fstream (⟨x.strict ++ [v], some rest, x.tails⟩ : FLL ε α) := by
          simp [fstream, hx, foptElems]
        rw [hfx, h1]
        simp
      · rw [h2]
        simp [List.append_assoc]
  | case3 x hlen e2 rest hx _ =>
      rw [fmakeStrictIdx_eq_err idx x e2 rest hx hlen] at hrun
      injection hrun with hs he
      injection he with he
      subst he
      refine ⟨[], rest ++ ftsStream x.tails, ?_, ?_, ?_⟩
      · simp [fstream, foptElems, hx]
      · rw [← hs]
        simp
      · rw [← hs]
        simp [fstream, foptElems]
  | case4 x hlen hx _ ih =>
      rw [fmakeStrictIdx_eq_adv idx x hx hlen] at hrun
      obtain ⟨pre, post, h1, h2, h3⟩ := ih hrun
      obtain ⟨spl, g1, g2⟩ := fadvanceGo_stream (ε := ε) x.strict x.tails
      refine ⟨spl ++ pre, post, ?_, ?_, h3⟩
      · have hfx : fstream x = ftsStream x.tails := by
          simp [fstream, hx, foptElems]
        have hfa : fstream (fadvance (⟨x.strict, none, x.tails⟩ : FLL ε α)) =
            foptElems (fadvanceGo x.strict x.tails).2.1 ++
              ftsStream (fadvanceGo x.strict x.tails).2.2 := by
          simp [fstream, fadvance]
        rw [hfx, g2, ← hfa, h1]
        simp [List.append_assoc]
      · have hsa : (fadvance (⟨x.strict, none, x.tails⟩ : FLL ε α)).strict =
            x.strict ++ spl := by
          simp [fadvance, g1]
        rw [h2, hsa, List.append_assoc]
  | case5 x l hx hlen =>
      rw [fmakeStrictIdx_eq_stop idx x l hx hlen] at hrun
      simp at hrun

/-- C7 counterexample.  The claim promises that after a propagated
failure the container holds exactly the elements pulled before the
failure.  Full materialization (`_make_strict(None)`, triggered by
`len`, `str`, `sort`, …) builds `list(tail)` before extending the
strict store, so when the source `iter([ok 1, raise])` fails, the
already-pulled value `1` is discarded with the partial list: the strict
store stays `[]` although one element was pulled before the failure. -/
theorem C7_counterexample :
    (fmakeStrictAll (⟨[], some [Except.ok 1, Except.error 0], []⟩ :
        FLL Nat Int)).1.strict = [] ∧
    (fmakeStrictAll (⟨[], some [Except.ok 1, Except.error 0], []⟩ :
        FLL Nat Int)).2 = some 0 ∧
    valsBeforeErr [Except.ok (1 : Int), Except.error (0 : Nat)] = [1] ∧
    ([] : List Int) ≠ [1] := by
  refine ⟨rfl, rfl, rfl, by decide⟩

/-- C7 witness: the index-path law applied to the source
`iter([ok 1, raise 0])` with requirement 5. -/
theorem C7_witness :
    ∃ pre post,
      fstream (⟨[], some [Except.ok 1, Except.error 0], []⟩ : FLL Nat Int) =
        pre.map Except.ok ++ Except.error 0 :: post ∧
      (⟨[1], some [], []⟩ : FLL Nat Int).strict =
        (⟨[], some [Except.ok 1, Except.error 0], []⟩ : FLL Nat Int).strict
          ++ pre ∧
      fstream (⟨[1], some [], []⟩ : FLL Nat Int) = post :=
  C7_index_failure_exact 5 _ _ 0 (by
    rw [fmakeStrictIdx_eq_ok 5 _ 1 [Except.error 0] rfl (by decide)]
    rw [fmakeStrictIdx_eq_err 5 _ 0 [] rfl (by decide)]
    rfl)

/-! ### C4: fork independence of `copy` -/

theorem getLast?_mem_of_eq (l : List β) (a : β) (hl : l.getLast? = some a) :
    a ∈ l := by
  have hx : a ∈ l.getLast? := by rw [hl]; rfl
  obtain ⟨hne, heq⟩ := List.mem_getLast?_eq_getLast hx
  rw [heq]
  exact List.getLast_mem hne

theorem hget_hset_ne (h : Heap α) (i j : Nat) (v : List α) (hne : i ≠ j) :
    hget (hset h i v) j = hget h j := by
  simp [hget, hset, List.getElem?_set_ne hne]

/-- Pointwise heap agreement on a container's references preserves its
contents. -/
theorem toList_hext (b : LL α) (h h2 : Heap α)
    (hags : ∀ j, Entry.ref j ∈ b.tails → hget h2 j = hget h j) :
    toList b h2 = toList b h := by
  simp only [toList]
  have hm : b.tails.map (entryElems h2) = b.tails.map (entryElems h) := by
    refine List.map_congr_left ?_
    intro e he
    cases e with
    | ref j => simp only [entryElems]; exact hags j he
    | itr l => rfl
  rw [hm]

theorem advanceGo_tails_mem (h : Heap α) (st : List α) (ts : List (Entry α))
    (e : Entry α) (he : e ∈ (advanceGo h st ts).2.2) : e ∈ ts := by
  induction ts generalizing st with
  | nil => simpa [advanceGo] using he
  | cons e2 rest ih =>
      cases e2 with
      | ref i =>
          simp only [advanceGo] at he
          exact List.mem_cons_of_mem _ (ih _ he)
      | itr l =>
          simp only [advanceGo] at he
          exact List.mem_cons_of_mem _ he

theorem makeStrictIdx_tails_mem (h : Heap α) (idx : Nat) (s : LL α)
    (e : Entry α) (he : e ∈ (makeStrictIdx h idx s).tails) : e ∈ s.tails := by
  induction s using makeStrictIdx.induct h idx with
  | case1 x hx =>
      rw [makeStrictIdx_eq_none h idx x hx] at he
      exact he
  | case2 x hlen v rest hx _ ih =>
      rw [makeStrictIdx_eq_cons h idx x v rest hx hlen] at he
      exact ih he
  | case3 x hlen hx _ ih =>
      rw [makeStrictIdx_eq_adv h idx x hx hlen] at he
      exact advanceGo_tails_mem h x.strict x.tails e (ih he)
  | case4 x l hx hlen =>
      rw [makeStrictIdx_eq_stop h idx x l hx hlen] at he
      exact he

theorem makeStrictInt_tails_mem (h : Heap α) (i : Int) (s : LL α)
    (e : Entry α) (he : e ∈ (makeStrictInt h i s).tails) : e ∈ s.tails := by
  simp only [makeStrictInt] at he
  split at he
  · cases hx : s.tail with
    | none => simpa [makeStrictAll, hx] using he
    | some l => simp [makeStrictAll, hx] at he
  · exact makeStrictIdx_tails_mem h i.toNat s e he

theorem addTail_frame (a : LL α) (h : Heap α) (src : Src α) :
    (∀ j, j < h.length → hget (addTail a h src).2 j = hget h j) ∧
    h.length ≤ (addTail a h src).2.length ∧
    (∀ j, Entry.ref j ∈ (addTail a h src).1.tails →
      Entry.ref j ∈ a.tails ∨ h.length ≤ j) := by
  cases src with
  | lst l =>
      refine ⟨?_, ?_, ?_⟩
      · intro j hj
        have hs : (addTail a h (Src.lst l)).2 = h ++ [l] := by
          simp [addTail, halloc]
        rw [hs]
        exact hget_append_lt h [l] j hj
      · have hs : (addTail a h (Src.lst l)).2 = h ++ [l] := by
          simp [addTail, halloc]
        rw [hs]
        simp
      · intro j hj
        have hsub : Entry.ref j ∈ a.tails ++ [Entry.ref h.length] := by
          simp only [addTail, halloc] at hj
          by_cases hn : a.tail.isNone
          · rw [if_pos hn] at hj
            exact advanceGo_tails_mem _ _ _ _ hj
          · rw [if_neg hn] at hj
            exact hj
        rcases List.mem_append.mp hsub with hin | hin
        · exact Or.inl hin
        · right
          have hje : (Entry.ref j : Entry α) = Entry.ref h.length := by
            simpa using hin
          cases hje
          exact le_refl _
  | itr l =>
      refine ⟨fun j hj => rfl, le_refl _, ?_⟩
      intro j hj
      have hsub : Entry.ref j ∈ a.tails ++ [Entry.itr l] := by
        simp only [addTail] at hj
        by_cases hn : a.tail.isNone
        · rw [if_pos hn] at hj
          exact advanceGo_tails_mem _ _ _ _ hj
        · rw [if_neg hn] at hj
          exact hj
      rcases List.mem_append.mp hsub with hin | hin
      · exact Or.inl hin
      · simp at hin

theorem applyOp_frame (a : LL α) (h : Heap α) (op : Op α) :
    (∀ j, j < h.length → Entry.ref j ∉ a.tails →
      hget (applyOp (a, h) op).2 j = hget h j) ∧
    h.length ≤ (applyOp (a, h) op).2.length ∧
    (∀ j, Entry.ref j ∈ (applyOp (a, h) op).1.tails →
      Entry.ref j ∈ a.tails ∨ h.length ≤ j) := by
  cases op with
  | read i =>
      exact ⟨fun j _ _ => rfl, le_refl _,
        fun j hj => Or.inl (makeStrictInt_tails_mem h i a _ hj)⟩
  | app v =>
      by_cases hstr : isStrict a
      · refine ⟨fun j _ _ => ?_, ?_, fun j hj => Or.inl ?_⟩
        · simp [applyOp, append, hstr]
        · simp [applyOp, append, hstr]
        · simpa [applyOp, append, hstr] using hj
      · rcases hlast : a.tails.getLast? with _ | e
        · have hm : applyOp (a, h) (Op.app v) = addTail a h (Src.lst [v]) := by
            simp [applyOp, append, hstr, hlast]
          rw [hm]
          have hf := addTail_frame a h (Src.lst [v])
          exact ⟨fun j hj _ => hf.1 j hj, hf.2.1, hf.2.2⟩
        · cases e with
          | ref i =>
              have hm : applyOp (a, h) (Op.app v) =
                  (a, hset h i (hget h i ++ [v])) := by
                simp [applyOp, append, hstr, hlast]
              rw [hm]
              refine ⟨?_, ?_, fun j hj => Or.inl hj⟩
              · intro j hj hnotin
                have hij : i ≠ j := by
                  intro hc
                  subst hc
                  exact hnotin (getLast?_mem_of_eq a.tails _ hlast)
                exact hget_hset_ne h i j _ hij
              · simp [hset]
          | itr l =>
              have hm : applyOp (a, h) (Op.app v) = addTail a h (Src.lst [v]) := by
                simp [applyOp, append, hstr, hlast]
              rw [hm]
              have hf := addTail_frame a h (Src.lst [v])
              exact ⟨fun j hj _ => hf.1 j hj, hf.2.1, hf.2.2⟩
  | ext src =>
      have hf := addTail_frame a h src
      exact ⟨fun j hj _ => hf.1 j hj, hf.2.1, hf.2.2⟩

/-- Applying any sequence of consuming/extending operations to one
container never changes the contents of a container whose references
are disjoint from it. -/
theorem applyOps_frame (b : LL α) (ops : List (Op α)) (a : LL α) (h : Heap α)
    (hb : ∀ j, Entry.ref j ∈ b.tails → j < h.length ∧ Entry.ref j ∉ a.tails) :
    toList b (applyOps (a, h) ops).2 = toList b h ∧
    (∀ j, Entry.ref j ∈ b.tails → j < (applyOps (a, h) ops).2.length ∧
      Entry.ref j ∉ (applyOps (a, h) ops).1.tails) := by
  induction ops generalizing a h with
  | nil => exact ⟨rfl, hb⟩
  | cons op rest ih =>
      have hf := applyOp_frame a h op
      have hstep : ∀ j, Entry.ref j ∈ b.tails →
          j < (applyOp (a, h) op).2.length ∧
            Entry.ref j ∉ (applyOp (a, h) op).1.tails := by
        intro j hj
        obtain ⟨hjlt, hjnot⟩ := hb j hj
        refine ⟨lt_of_lt_of_le hjlt hf.2.1, ?_⟩
        intro hc
        rcases hf.2.2 j hc with hin | hge
        · exact hjnot hin
        · omega
      have happly : applyOps (a, h) (op :: rest) =
          applyOps (applyOp (a, h) op) rest := rfl
      rw [happly]
      obtain ⟨e1, e2⟩ := ih (applyOp (a, h) op).1 (applyOp (a, h) op).2 hstep
      rw [Prod.mk.eta] at e1 e2
      constructor
      · rw [e1]
        refine toList_hext b h (applyOp (a, h) op).2 ?_
        intro j hj
        obtain ⟨hjlt, hjnot⟩ := hb j hj
        exact hf.1 j hjlt hjnot
      · exact e2

theorem copyTails_spec (ts : List (Entry α)) (h : Heap α)
    (hall : ts.all (entryOk h.length)) :
    (copyTails h ts).1 = ts ∧
    (∃ hs, (copyTails h ts).2.2 = h ++ hs) ∧
    (copyTails h ts).2.1.map (entryElems (copyTails h ts).2.2) =
      ts.map (entryElems h) ∧
    (∀ j, Entry.ref j ∈ (copyTails h ts).2.1 →
      h.length ≤ j ∧ j < (copyTails h ts).2.2.length) := by
  induction ts generalizing h with
  | nil => exact ⟨rfl, ⟨[], by simp [copyTails]⟩, rfl, by simp [copyTails]⟩
  | cons e rest ih =>
      cases e with
      | ref i =>
          have hallr : entryOk h.length (Entry.ref i : Entry α) = true ∧
              rest.all (entryOk h.length) = true := by
            simpa [List.all_cons, Bool.and_eq_true] using hall
          have hi : i < h.length := by
            simpa [entryOk] using hallr.1
          have hall2 : rest.all (entryOk (h ++ [hget h i]).length) := by
            refine List.all_eq_true.mpr ?_
            intro e2 he2
            exact entryOk_mono h.length (h ++ [hget h i]).length (by simp) e2
              ((List.all_eq_true.mp hallr.2) e2 he2)
          obtain ⟨ih1, ⟨hs, ih2⟩, ih3, ih4⟩ := ih (h ++ [hget h i]) hall2
          have hcompute : copyTails h (Entry.ref i :: rest) =
              (Entry.ref i :: (copyTails (h ++ [hget h i]) rest).1,
               Entry.ref h.length :: (copyTails (h ++ [hget h i]) rest).2.1,
               (copyTails (h ++ [hget h i]) rest).2.2) := by
            simp [copyTails, halloc]
          rw [hcompute]
          refine ⟨by rw [ih1], ⟨[hget h i] ++ hs, by rw [ih2, List.append_assoc]⟩,
            ?_, ?_⟩
          · simp only [List.map_cons, ih3]
            have hgv : entryElems (copyTails (h ++ [hget h i]) rest).2.2
                (Entry.ref h.length) = hget h i := by
              simp only [entryElems]
              rw [ih2, hget_append_lt (h ++ [hget h i]) hs h.length (by simp)]
              exact hget_alloc h (hget h i)
            rw [hgv]
            have hrest := map_entryElems_append h [hget h i] rest hallr.2
            rw [hrest]
            rfl
          · intro j hj
            rcases List.mem_cons.mp hj with hj0 | hj1
            · have : j = h.length := by
                cases hj0
                rfl
              subst this
              refine ⟨le_refl _, ?_⟩
              rw [ih2]
              simp
            · obtain ⟨hge, hlt⟩ := ih4 j hj1
              refine ⟨?_, hlt⟩
              simp only [List.length_append, List.length_cons,
                List.length_nil] at hge
              omega
      | itr l =>
          have hallr : rest.all (entryOk h.length) = true := by
            have hx := hall
            simp only [List.all_cons, Bool.and_eq_true] at hx
            exact hx.2
          obtain ⟨ih1, ⟨hs, ih2⟩, ih3, ih4⟩ := ih h hallr
          have hcompute : copyTails h (Entry.itr l :: rest) =
              (Entry.itr l :: (copyTails h rest).1,
               Entry.itr l :: (copyTails h rest).2.1,
               (copyTails h rest).2.2) := by
            simp [copyTails]
          rw [hcompute]
          refine ⟨by rw [ih1], ⟨hs, ih2⟩, ?_, ?_⟩
          · simp only [List.map_cons, ih3]
            rfl
          · intro j hj
            rcases List.mem_cons.mp hj with hj0 | hj1
            · simp at hj0
            · exact ih4 j hj1

/-- C4.  `copy()` returns a container with the same contents as the
original, and afterwards any sequence of consuming or extending
operations (indexed reads / iteration steps, `append`, `extend`)
performed on either container leaves the contents reported by the other
unchanged.  The hypothesis says the container's pending references
point into the heap, which holds for every container built by the
engine. -/
theorem C4_fork_independence (s : LL α) (h : Heap α) (hr : refsOk s h.length) :
    toList (copy s h).1 (copy s h).2.2 = toList s h ∧
    toList (copy s h).2.1 (copy s h).2.2 = toList s h ∧
    (∀ ops : List (Op α),
      toList (copy s h).2.1 (applyOps ((copy s h).1, (copy s h).2.2) ops).2 =
        toList s h) ∧
    (∀ ops : List (Op α),
      toList (copy s h).1 (applyOps ((copy s h).2.1, (copy s h).2.2) ops).2 =
        toList s h) := by
  obtain ⟨c1, ⟨hs, c2⟩, c3, c4⟩ := copyTails_spec s.tails h hr
  have hcopy : copy s h = (⟨s.strict, s.tail, (copyTails h s.tails).1⟩,
      ⟨s.strict, s.tail, (copyTails h s.tails).2.1⟩,
      (copyTails h s.tails).2.2) := by
    simp [copy]
  have horig : toList (copy s h).1 (copy s h).2.2 = toList s h := by
    rw [hcopy]
    simp only [toList]
    rw [c1]
    congr 1
    rw [c2]
    rw [map_entryElems_append h hs s.tails hr]
  have hcp : toList (copy s h).2.1 (copy s h).2.2 = toList s h := by
    rw [hcopy]
    simp only [toList]
    rw [c3]
  have hdisj1 : ∀ j, Entry.ref j ∈ (copy s h).2.1.tails →
      j < (copy s h).2.2.length ∧ Entry.ref j ∉ (copy s h).1.tails := by
    intro j hj
    rw [hcopy] at hj ⊢
    obtain ⟨hge, hlt⟩ := c4 j hj
    refine ⟨hlt, ?_⟩
    rw [c1]
    intro hc
    have := (List.all_eq_true.mp hr) _ hc
    simp only [entryOk, decide_eq_true_eq] at this
    omega
  have hdisj2 : ∀ j, Entry.ref j ∈ (copy s h).1.tails →
      j < (copy s h).2.2.length ∧ Entry.ref j ∉ (copy s h).2.1.tails := by
    intro j hj
    rw [hcopy] at hj ⊢
    rw [c1] at hj
    have := (List.all_eq_true.mp hr) _ hj
    simp only [entryOk, decide_eq_true_eq] at this
    refine ⟨by rw [c2]; simp only [List.length_append]; omega, ?_⟩
    intro hc
    obtain ⟨hge, _⟩ := c4 j hc
    omega
  refine ⟨horig, hcp, ?_, ?_⟩
  · intro ops
    have := (applyOps_frame (copy s h).2.1 ops (copy s h).1 (copy s h).2.2
      hdisj1).1
    rw [this, hcp]
  · intro ops
    have := (applyOps_frame (copy s h).1 ops (copy s h).2.1 (copy s h).2.2
      hdisj2).1
    rw [this, horig]

/-- C4 witness: fork independence applied to a concrete container with
a strict prefix, an active iterator, a pending list source and a
pending iterator source, with a read, an append and an extend applied
to the original. -/
theorem C4_witness :
    toList (copy (⟨[1], some [2], [Entry.ref 0, Entry.itr [4]]⟩ : LL Int)
        [[3]]).2.1
      (applyOps ((copy (⟨[1], some [2], [Entry.ref 0, Entry.itr [4]]⟩ :
          LL Int) [[3]]).1,
        (copy (⟨[1], some [2], [Entry.ref 0, Entry.itr [4]]⟩ : LL Int)
          [[3]]).2.2)
        [Op.read 5, Op.app 9, Op.ext (Src.lst [7])]).2 =
      toList (⟨[1], some [2], [Entry.ref 0, Entry.itr [4]]⟩ : LL Int) [[3]] :=
  (C4_fork_independence (⟨[1], some [2], [Entry.ref 0, Entry.itr [4]]⟩ : LL Int)
    [[3]] (by decide)).2.2.1 [Op.read 5, Op.app 9, Op.ext (Src.lst [7])]

end LazyStuff
